import Mathlib

/-!
Shallow embedding of the sparse-matrix implementation in `src/matrice.cpp`
(and its near-duplicate `src/test_matrix.cpp`).

The C++ stores a matrix as a singly linked list of `RowNode`s ordered by row
index, each holding a singly linked list of `(col, value)` element nodes
ordered by column.  Values are `double`; here they are embedded as exact
rationals `ℚ`, so all arithmetic is the ideal-precision version of the code's
arithmetic.  The zero threshold `1e-10` is the rational `eps` below.

Fallible operations (the C++ throws) are embedded in `Except String`; for
`insert`, whose C++ version can mutate the object before throwing, the
embedding `insertE` returns the post-call state together with the optional
error, so that exception-safety behaviour is observable.
-/

namespace SparseSpec

/-- Matrix values: exact rationals standing in for C++ `double`. -/
abbrev Val := ℚ

/-- The zero-suppression threshold `1e-10` from the source. -/
def eps : Val := 1 / 10000000000

/-- Embeds `RowNode`: a row index together with the ordered element list
    (the `MatrixNode` chain, each node a `(col, value)` pair). -/
structure RowNode where
  row : Int
  elements : List (Int × Val)
deriving DecidableEq, Repr

/-- Embeds the `SparseMatrix` class state: dimensions plus the row list. -/
structure SparseMatrix where
  rows : Int
  cols : Int
  rowList : List RowNode
deriving DecidableEq, Repr

/-- Embeds the element-insertion part of `SparseMatrix::insertIntoRow`
    (the nonzero branch): walk while `col < c`; overwrite an existing
    element at `c`, otherwise splice a new node in ascending position. -/
def upsertElem (c : Int) (v : Val) : List (Int × Val) → List (Int × Val)
  | [] => [(c, v)]
  | e :: rest =>
    if c < e.1 then (c, v) :: e :: rest
    else if e.1 = c then (c, v) :: rest
    else e :: upsertElem c v rest

/-- Embeds `SparseMatrix::removeFromRow`: delete the first element node
    whose column is `c`, if any. -/
def removeElem (c : Int) : List (Int × Val) → List (Int × Val)
  | [] => []
  | e :: rest => if e.1 = c then rest else e :: removeElem c rest

/-- Embeds the inner scan of `SparseMatrix::get`: skip while `col < c`,
    then return the value if the stop node has column `c`, else `0`. -/
def lookupElemScan (c : Int) : List (Int × Val) → Val
  | [] => 0
  | e :: rest =>
    if e.1 < c then lookupElemScan c rest
    else if e.1 = c then e.2 else 0

/-- Embeds `SparseMatrix::insertIntoRow` acting on one row's element list:
    the column bound check is handled by the caller (`insertE`), which
    records the thrown error; the state effect here is: no change when the
    bound check throws, removal when `|v| < eps`, ordered upsert otherwise. -/
def applyToRow (cols c : Int) (v : Val) (es : List (Int × Val)) : List (Int × Val) :=
  if c < 0 ∨ cols ≤ c then es
  else if |v| < eps then removeElem c es
  else upsertElem c v es

/-- Embeds `getRowNode(r, true)` followed by `insertIntoRow` on the found or
    created node: walk while `row < r`; update the node with index `r` in
    place if found, otherwise splice in a new row (initially empty elements,
    then `applyToRow` runs on it) at the ascending position. -/
def insertNZ (cols r c : Int) (v : Val) : List RowNode → List RowNode
  | [] => [⟨r, applyToRow cols c v []⟩]
  | rw :: rest =>
    if rw.row < r then rw :: insertNZ cols r c v rest
    else if rw.row = r then ⟨r, applyToRow cols c v rw.elements⟩ :: rest
    else ⟨r, applyToRow cols c v []⟩ :: rw :: rest

/-- Embeds the outer scan of `SparseMatrix::get` and of `getRowNode` with
    `create = false`: skip while `row < r`; return the stop node's elements
    when its index is `r`. -/
def lookupRowScan (r : Int) : List RowNode → Option (List (Int × Val))
  | [] => none
  | rw :: rest =>
    if rw.row < r then lookupRowScan r rest
    else if rw.row = r then some rw.elements else none

/-- Embeds `removeFromRow` applied through the row found by `getRowNode(r)`:
    the first row node with index `≥ r` is modified when its index is `r`. -/
def removeAtRow (r c : Int) : List RowNode → List RowNode
  | [] => []
  | rw :: rest =>
    if rw.row < r then rw :: removeAtRow r c rest
    else if rw.row = r then ⟨r, removeElem c rw.elements⟩ :: rest
    else rw :: rest

/-- Embeds `SparseMatrix::cleanupEmptyRows`: drop every row node whose
    element list is empty, keeping the order of the rest. -/
def cleanupEmptyRows (l : List RowNode) : List RowNode :=
  l.filter (fun rw => !rw.elements.isEmpty)

/-- Embeds the `|v| < 1e-10` branch of `SparseMatrix::insert` (after the row
    bound check): if row `r` is absent nothing happens; otherwise the element
    at `c` is removed and, exactly when that row became empty,
    `cleanupEmptyRows` runs. -/
def insertZ (r c : Int) (l : List RowNode) : List RowNode :=
  match lookupRowScan r l with
  | none => l
  | some es =>
    let l' := removeAtRow r c l
    if (removeElem c es).isEmpty then cleanupEmptyRows l' else l'

/-- Embeds `SparseMatrix::insert(r, c, v)` including its exception behaviour:
    the first component is the thrown error (if any), the second the state of
    the object after the call — which, for a nonzero `v` with in-range `r` but
    out-of-range `c`, already contains the row created by `getRowNode(r, true)`
    before `insertIntoRow` threw. -/
def insertE (m : SparseMatrix) (r c : Int) (v : Val) :
    Option String × SparseMatrix :=
  if |v| < eps then
    if r < 0 ∨ m.rows ≤ r then (some "Row index out of range", m)
    else (none, { m with rowList := insertZ r c m.rowList })
  else
    if r < 0 ∨ m.rows ≤ r then (some "Row index out of range", m)
    else
      let l := insertNZ m.cols r c v m.rowList
      if c < 0 ∨ m.cols ≤ c then
        (some "Column index out of range", { m with rowList := l })
      else (none, { m with rowList := l })

/-- The state after `insert`, exceptional or not. -/
def SparseMatrix.ins (m : SparseMatrix) (r c : Int) (v : Val) : SparseMatrix :=
  (insertE m r c v).2

/-- `insert` as a fallible operation (the caller's view: on a throw the local
    result being built is lost). -/
def SparseMatrix.insert (m : SparseMatrix) (r c : Int) (v : Val) :
    Except String SparseMatrix :=
  match insertE m r c v with
  | (none, m') => .ok m'
  | (some e, _) => .error e

/-- The value stored at `(r, c)`: outer and inner early-exit scans of
    `SparseMatrix::get`, absent meaning `0`. -/
def lookupCell (r c : Int) (l : List RowNode) : Val :=
  match lookupRowScan r l with
  | none => 0
  | some es => lookupElemScan c es

/-- Embeds `SparseMatrix::get(r, c)`. -/
def SparseMatrix.get (m : SparseMatrix) (r c : Int) : Except String Val :=
  if r < 0 ∨ m.rows ≤ r ∨ c < 0 ∨ m.cols ≤ c then .error "Index out of range"
  else .ok (lookupCell r c m.rowList)

/-- Embeds the `SparseMatrix(int, int)` constructor. -/
def SparseMatrix.make (r c : Int) : Except String SparseMatrix :=
  if r ≤ 0 ∨ c ≤ 0 then .error "Matrix dimensions must be positive"
  else .ok ⟨r, c, []⟩

/-- The stored cells `(row, col, value)` in traversal (row-major) order:
    the iteration order of the nested `while` loops of `add`, `transpose`,
    `displaySparse`, `countNonZero`, …. -/
def cellsOf : List RowNode → List (Int × Int × Val)
  | [] => []
  | rw :: rest => rw.elements.map (fun e => (rw.row, e.1, e.2)) ++ cellsOf rest

/-- Embeds `SparseMatrix::countNonZero`. -/
def SparseMatrix.countNonZero (m : SparseMatrix) : Nat :=
  m.rowList.foldl (fun n rw => n + rw.elements.length) 0

/-- First loop of `add`/`subtract`: insert every stored cell of the left
    operand into the result being built. -/
def copyInLoop (m : SparseMatrix) (l : List (Int × Int × Val)) :
    Except String SparseMatrix :=
  l.foldlM (fun acc t => acc.insert t.1 t.2.1 t.2.2) m

/-- Second loop of `add`: for every stored cell of the right operand, read
    the current result value there and insert the sum. -/
def addInLoop (m : SparseMatrix) (l : List (Int × Int × Val)) :
    Except String SparseMatrix :=
  l.foldlM (fun acc t => do
    let cur ← acc.get t.1 t.2.1
    acc.insert t.1 t.2.1 (cur + t.2.2)) m

/-- Second loop of `subtract`: read the current result value and insert the
    difference. -/
def subInLoop (m : SparseMatrix) (l : List (Int × Int × Val)) :
    Except String SparseMatrix :=
  l.foldlM (fun acc t => do
    let cur ← acc.get t.1 t.2.1
    acc.insert t.1 t.2.1 (cur - t.2.2)) m

/-- Embeds `SparseMatrix::add`. -/
def SparseMatrix.add (a b : SparseMatrix) : Except String SparseMatrix :=
  if a.rows ≠ b.rows ∨ a.cols ≠ b.cols then
    .error "Matrix dimensions do not match for addition"
  else do
    let r0 ← SparseMatrix.make a.rows a.cols
    let r1 ← copyInLoop r0 (cellsOf a.rowList)
    addInLoop r1 (cellsOf b.rowList)

/-- Embeds `SparseMatrix::subtract`. -/
def SparseMatrix.subtract (a b : SparseMatrix) : Except String SparseMatrix :=
  if a.rows ≠ b.rows ∨ a.cols ≠ b.cols then
    .error "Matrix dimensions do not match for subtraction"
  else do
    let r0 ← SparseMatrix.make a.rows a.cols
    let r1 ← copyInLoop r0 (cellsOf a.rowList)
    subInLoop r1 (cellsOf b.rowList)

/-- Embeds `SparseMatrix::scalarMultiply`: fresh result; early return when the
    scalar is below threshold; otherwise insert each scaled value unless it
    fell below threshold. -/
def SparseMatrix.scalarMultiply (m : SparseMatrix) (k : Val) :
    Except String SparseMatrix := do
  let r0 ← SparseMatrix.make m.rows m.cols
  if |k| < eps then pure r0
  else
    (cellsOf m.rowList).foldlM (fun acc t =>
      let nv := t.2.2 * k
      if eps ≤ |nv| then acc.insert t.1 t.2.1 nv else pure acc) r0

/-- Embeds `SparseMatrix::multiply`: for each stored row of the left operand
    and each output column `j`, accumulate `val1 * other.get(k, j)` over the
    row's elements, skipping terms whose right factor is below threshold, and
    store the sum only when it reaches the threshold. -/
def SparseMatrix.multiply (a b : SparseMatrix) : Except String SparseMatrix :=
  if a.cols ≠ b.rows then
    .error "Matrix dimensions do not match for multiplication"
  else do
    let r0 ← SparseMatrix.make a.rows b.cols
    a.rowList.foldlM (fun acc rw =>
      ((List.range b.cols.toNat).map Int.ofNat).foldlM (fun acc2 j => do
        let sum ← rw.elements.foldlM (fun s e => do
          let v2 ← b.get e.1 j
          pure (if eps ≤ |v2| then s + e.2 * v2 else s)) (0 : Val)
        if eps ≤ |sum| then acc2.insert rw.row j sum else pure acc2) acc) r0

/-- Embeds `SparseMatrix::transpose`: a fresh result of swapped dimensions,
    then `insert(c, r, v)` for every stored `(r, c, v)` in traversal order. -/
def SparseMatrix.transpose (m : SparseMatrix) : Except String SparseMatrix := do
  let r0 ← SparseMatrix.make m.cols m.rows
  (cellsOf m.rowList).foldlM (fun acc t => acc.insert t.2.1 t.1 t.2.2) r0

/-- Embeds `SparseMatrix::determinant`: square only; closed forms for orders
    1, 2, 3 via `get`; larger orders throw. -/
def SparseMatrix.determinant (m : SparseMatrix) : Except String Val :=
  if m.rows ≠ m.cols then
    .error "Matrix must be square to calculate determinant"
  else if m.rows = 1 then m.get 0 0
  else if m.rows = 2 then do
    let a ← m.get 0 0
    let d ← m.get 1 1
    let b ← m.get 0 1
    let c ← m.get 1 0
    pure (a * d - b * c)
  else if m.rows = 3 then do
    let a ← m.get 0 0
    let b ← m.get 0 1
    let c ← m.get 0 2
    let d ← m.get 1 0
    let e ← m.get 1 1
    let f ← m.get 1 2
    let g ← m.get 2 0
    let h ← m.get 2 1
    let i ← m.get 2 2
    pure (a * (e * i - f * h) - b * (d * i - f * g) + c * (d * h - e * g))
  else
    .error "Determinant calculation for matrices larger than 3x3 not implemented"

/-- Embeds the element-copy loop shared by the copy constructor and
    `operator=`: rebuild the element chain node by node. -/
def copyElems : List (Int × Val) → List (Int × Val)
  | [] => []
  | e :: rest => (e.1, e.2) :: copyElems rest

/-- Embeds the row-copy loop shared by the copy constructor and `operator=`:
    rebuild every row node and its element chain. -/
def copyRows : List RowNode → List RowNode
  | [] => []
  | rw :: rest => ⟨rw.row, copyElems rw.elements⟩ :: copyRows rest

/-- Embeds `SparseMatrix::operator=`: the `this != &other` guard is the
    Boolean `same`; when the operands are distinct objects the target is torn
    down and rebuilt as a deep copy of the source. -/
def assignOp (dst src : SparseMatrix) (same : Bool) : SparseMatrix :=
  if same then dst else ⟨src.rows, src.cols, copyRows src.rowList⟩

/-- A sequence of `insert` calls applied in order, each acting on the state
    the previous call left behind (exceptional or not). -/
def applyInserts (m : SparseMatrix) (ops : List (Int × Int × Val)) : SparseMatrix :=
  ops.foldl (fun acc t => acc.ins t.1 t.2.1 t.2.2) m

/-! ## Basic facts about the copy loops and dimension bookkeeping -/

theorem copyElems_id (l : List (Int × Val)) : copyElems l = l := by
  induction l with
  | nil => rfl
  | cons e rest ih => simp [copyElems, ih]

theorem copyRows_id (l : List RowNode) : copyRows l = l := by
  induction l with
  | nil => rfl
  | cons rw rest ih => simp [copyRows, copyElems_id, ih]

theorem ins_rows (m : SparseMatrix) (r c : Int) (v : Val) :
    (m.ins r c v).rows = m.rows := by
  unfold SparseMatrix.ins insertE
  split_ifs <;> rfl

theorem ins_cols (m : SparseMatrix) (r c : Int) (v : Val) :
    (m.ins r c v).cols = m.cols := by
  unfold SparseMatrix.ins insertE
  split_ifs <;> rfl

/-- The error component of `insertE` in closed form. -/
theorem insertE_err (m : SparseMatrix) (r c : Int) (v : Val) :
    (insertE m r c v).1 =
      if r < 0 ∨ m.rows ≤ r then some "Row index out of range"
      else if |v| < eps then none
      else if c < 0 ∨ m.cols ≤ c then some "Column index out of range"
      else none := by
  unfold insertE
  by_cases h1 : |v| < eps <;> by_cases h2 : r < 0 ∨ m.rows ≤ r <;>
    by_cases h3 : c < 0 ∨ m.cols ≤ c <;> simp [h1, h2, h3]

/-! ## Claims C1, C3, C10 -/

/-- C1 counterexample: the claim says `insert(r, c, v)` fails with an index
    error for every out-of-range `(r, c)` regardless of `|v|` versus `eps`;
    but on a freshly constructed 1×1 matrix, `insert(0, 5, 0)` — column 5 far
    out of range, value below threshold — raises no error at all, because the
    below-threshold branch of `insert` only bound-checks the row. -/
theorem insert_zero_oob_col_no_error :
    (insertE ⟨1, 1, []⟩ 0 5 0).1 = none ∧ ¬(5 < (1 : Int)) := by
  refine ⟨?_, by decide⟩
  norm_num [insertE, insertZ, lookupRowScan, eps]

/-- C1 (amended): `insert(r, c, v)` fails with an index error whenever `r` is
    outside `[0, rowCount)`, and, when `|v| ≥ eps`, also whenever `c` is
    outside `[0, colCount)`; but when `|v| < eps` and `r` is in range the
    call never fails, even for out-of-range `c`. -/
theorem insert_index_error_spec (m : SparseMatrix) (r c : Int) (v : Val) :
    ((r < 0 ∨ m.rows ≤ r) → (insertE m r c v).1.isSome) ∧
    (eps ≤ |v| → 0 ≤ r → r < m.rows → (c < 0 ∨ m.cols ≤ c) →
      (insertE m r c v).1.isSome) ∧
    (|v| < eps → 0 ≤ r → r < m.rows → (insertE m r c v).1 = none) := by
  refine ⟨?_, ?_, ?_⟩
  · intro hr
    simp [insertE_err, hr]
  · intro hv hr0 hr1 hc
    have hr : ¬(r < 0 ∨ m.rows ≤ r) := by omega
    simp [insertE_err, hr, hc, not_lt.2 hv]
  · intro hv hr0 hr1
    have hr : ¬(r < 0 ∨ m.rows ≤ r) := by omega
    simp [insertE_err, hr, hv]

/-- Witness for C1's amended theorem: all three branches at concrete inputs
    on a 1×1 matrix. -/
theorem insert_index_error_spec_witness :
    (insertE ⟨1, 1, []⟩ 5 0 (1 : Val)).1.isSome ∧
    (insertE ⟨1, 1, []⟩ 0 5 (1 : Val)).1.isSome ∧
    (insertE ⟨1, 1, []⟩ 0 5 (0 : Val)).1 = none := by
  refine ⟨?_, ?_, ?_⟩
  · exact (insert_index_error_spec ⟨1, 1, []⟩ 5 0 1).1 (Or.inr (by decide))
  · exact (insert_index_error_spec ⟨1, 1, []⟩ 0 5 1).2.1
      (by norm_num [eps]) (by decide) (by decide) (Or.inr (by decide))
  · exact (insert_index_error_spec ⟨1, 1, []⟩ 0 5 0).2.2
      (by norm_num [eps]) (by decide) (by decide)

/-- C3: a failing `insert` can leave an empty row behind.  On a fresh 1×1
    matrix, `insert(0, 5, 1)` throws the column-range error, yet the post-call
    state holds row 0 with an empty element list: `getRowNode(0, true)` created
    the row before `insertIntoRow` threw, and no cleanup runs.  This
    contradicts the documented invariant that a row exists in the Row Index
    iff it holds at least one stored element. -/
theorem failed_insert_leaves_empty_row :
    (insertE ⟨1, 1, []⟩ 0 5 (1 : Val)).1 = some "Column index out of range" ∧
    (insertE ⟨1, 1, []⟩ 0 5 (1 : Val)).2.rowList = [⟨0, []⟩] := by
  constructor <;> norm_num [insertE, insertNZ, applyToRow, eps]

/-- C10: assigning a matrix to itself leaves it unchanged — on the guarded
    path trivially, and on the deep-copy path because the row/element copy
    loops reproduce the structure exactly. -/
theorem self_assign_id (m : SparseMatrix) (same : Bool) : assignOp m m same = m := by
  cases same with
  | true => rfl
  | false =>
    show (⟨m.rows, m.cols, copyRows m.rowList⟩ : SparseMatrix) = m
    rw [copyRows_id]

/-! ## Claim C9: determinant -/

/-- C9: `determinant` requires a square matrix; order 1 returns `get(0,0)`,
    order 2 returns `ad - bc`, order 3 the first-row cofactor expansion of the
    nine cell reads, and every order ≥ 4 fails with the unsupported-size
    error. -/
theorem determinant_spec (m : SparseMatrix) :
    (m.rows ≠ m.cols →
      m.determinant = .error "Matrix must be square to calculate determinant") ∧
    (m.rows = m.cols →
      ((m.rows = 1 → m.determinant = m.get 0 0) ∧
       (m.rows = 2 → m.determinant =
         .ok (lookupCell 0 0 m.rowList * lookupCell 1 1 m.rowList
              - lookupCell 0 1 m.rowList * lookupCell 1 0 m.rowList)) ∧
       (m.rows = 3 → m.determinant =
         .ok (lookupCell 0 0 m.rowList *
                (lookupCell 1 1 m.rowList * lookupCell 2 2 m.rowList
                 - lookupCell 1 2 m.rowList * lookupCell 2 1 m.rowList)
              - lookupCell 0 1 m.rowList *
                (lookupCell 1 0 m.rowList * lookupCell 2 2 m.rowList
                 - lookupCell 1 2 m.rowList * lookupCell 2 0 m.rowList)
              + lookupCell 0 2 m.rowList *
                (lookupCell 1 0 m.rowList * lookupCell 2 1 m.rowList
                 - lookupCell 1 1 m.rowList * lookupCell 2 0 m.rowList))) ∧
       (4 ≤ m.rows → m.determinant =
         .error
           "Determinant calculation for matrices larger than 3x3 not implemented"))) := by
  refine ⟨?_, ?_⟩
  · intro hne
    simp [SparseMatrix.determinant, hne]
  · intro hsq
    refine ⟨?_, ?_, ?_, ?_⟩
    · intro h1
      rw [SparseMatrix.determinant, if_neg (by omega), if_pos h1]
    · intro h2
      have hc : m.cols = 2 := hsq ▸ h2
      have hg : ∀ i j : Int, 0 ≤ i → i < 2 → 0 ≤ j → j < 2 →
          m.get i j = .ok (lookupCell i j m.rowList) := by
        intro i j hi0 hi1 hj0 hj1
        rw [SparseMatrix.get, if_neg (by omega)]
      rw [SparseMatrix.determinant, if_neg (by omega), if_neg (by omega),
        if_pos h2]
      rw [hg 0 0 (by omega) (by omega) (by omega) (by omega),
        hg 1 1 (by omega) (by omega) (by omega) (by omega),
        hg 0 1 (by omega) (by omega) (by omega) (by omega),
        hg 1 0 (by omega) (by omega) (by omega) (by omega)]
      rfl
    · intro h3
      have hc : m.cols = 3 := hsq ▸ h3
      have hg : ∀ i j : Int, 0 ≤ i → i < 3 → 0 ≤ j → j < 3 →
          m.get i j = .ok (lookupCell i j m.rowList) := by
        intro i j hi0 hi1 hj0 hj1
        rw [SparseMatrix.get, if_neg (by omega)]
      rw [SparseMatrix.determinant, if_neg (by omega), if_neg (by omega),
        if_neg (by omega), if_pos h3]
      rw [hg 0 0 (by omega) (by omega) (by omega) (by omega),
        hg 0 1 (by omega) (by omega) (by omega) (by omega),
        hg 0 2 (by omega) (by omega) (by omega) (by omega),
        hg 1 0 (by omega) (by omega) (by omega) (by omega),
        hg 1 1 (by omega) (by omega) (by omega) (by omega),
        hg 1 2 (by omega) (by omega) (by omega) (by omega),
        hg 2 0 (by omega) (by omega) (by omega) (by omega),
        hg 2 1 (by omega) (by omega) (by omega) (by omega),
        hg 2 2 (by omega) (by omega) (by omega) (by omega)]
      rfl
    · intro h4
      rw [SparseMatrix.determinant, if_neg (by omega), if_neg (by omega),
        if_neg (by omega), if_neg (by omega)]

/-- The 2×2 matrix `[[1,2],[3,4]]` of the spec's concrete scenario, in
    canonical stored form. -/
def mW : SparseMatrix := ⟨2, 2, [⟨0, [(0, 1), (1, 2)]⟩, ⟨1, [(0, 3), (1, 4)]⟩]⟩

/-- Witness for C9: determinant of `[[1,2],[3,4]]` is `-2`; a 4×4 request
    fails with the unsupported-size error. -/
theorem determinant_spec_witness :
    mW.determinant = .ok (-2) ∧
    (⟨4, 4, []⟩ : SparseMatrix).determinant =
      .error
        "Determinant calculation for matrices larger than 3x3 not implemented" := by
  constructor
  · have h := ((determinant_spec mW).2 rfl).2.1 rfl
    rw [h]
    norm_num [mW, lookupCell, lookupRowScan, lookupElemScan]
  · exact ((determinant_spec ⟨4, 4, []⟩).2 rfl).2.2.2 (by decide)

/-! ## Ordering invariants (claim C2) -/

/-- Elements of one row strictly ascending by column. -/
def ElemsSorted (es : List (Int × Val)) : Prop :=
  es.Pairwise (fun a b => a.1 < b.1)

/-- Rows strictly ascending by row index. -/
def RowsSorted (l : List RowNode) : Prop :=
  l.Pairwise (fun a b => a.row < b.row)

/-- The ordering invariant of the storage. -/
def Inv2 (m : SparseMatrix) : Prop :=
  RowsSorted m.rowList ∧ ∀ rw ∈ m.rowList, ElemsSorted rw.elements

theorem upsertElem_mem {c : Int} {v : Val} :
    ∀ {es : List (Int × Val)} {b}, b ∈ upsertElem c v es → b = (c, v) ∨ b ∈ es := by
  intro es
  induction es with
  | nil => intro b hb; simp [upsertElem] at hb; simp [hb]
  | cons e rest ih =>
    intro b hb
    unfold upsertElem at hb
    split_ifs at hb with h1 h2
    · rcases List.mem_cons.1 hb with h | h
      · exact Or.inl h
      · exact Or.inr h
    · rcases List.mem_cons.1 hb with h | h
      · exact Or.inl h
      · exact Or.inr (List.mem_cons_of_mem _ h)
    · rcases List.mem_cons.1 hb with h | h
      · exact Or.inr (h ▸ List.mem_cons_self _ _)
      · rcases ih h with h' | h'
        · exact Or.inl h'
        · exact Or.inr (List.mem_cons_of_mem _ h')

theorem upsertElem_sorted {c : Int} {v : Val} :
    ∀ {es : List (Int × Val)}, ElemsSorted es → ElemsSorted (upsertElem c v es) := by
  intro es
  induction es with
  | nil => intro _; simp [upsertElem, ElemsSorted]
  | cons e rest ih =>
    intro hs
    rw [ElemsSorted, List.pairwise_cons] at hs
    obtain ⟨h1, h2⟩ := hs
    unfold upsertElem
    split_ifs with hlt heq
    · rw [ElemsSorted, List.pairwise_cons]
      constructor
      · intro b hb
        rcases List.mem_cons.1 hb with h | h
        · exact h ▸ hlt
        · exact lt_trans hlt (h1 b h)
      · rw [List.pairwise_cons]
        exact ⟨h1, h2⟩
    · rw [ElemsSorted, List.pairwise_cons]
      refine ⟨fun b hb => ?_, h2⟩
      have := h1 b hb
      omega
    · rw [ElemsSorted, List.pairwise_cons]
      constructor
      · intro b hb
        rcases upsertElem_mem hb with h | h
        · rw [h]; omega
        · exact h1 b h
      · exact ih h2

theorem removeElem_sublist (c : Int) :
    ∀ es : List (Int × Val), List.Sublist (removeElem c es) es := by
  intro es
  induction es with
  | nil => simp [removeElem]
  | cons e rest ih =>
    unfold removeElem
    split_ifs with h
    · exact List.sublist_cons_self e rest
    · exact List.Sublist.cons₂ e ih

theorem removeElem_sorted {c : Int} {es : List (Int × Val)}
    (hs : ElemsSorted es) : ElemsSorted (removeElem c es) :=
  hs.sublist (removeElem_sublist c es)

theorem applyToRow_sorted {cols c : Int} {v : Val} {es : List (Int × Val)}
    (hs : ElemsSorted es) : ElemsSorted (applyToRow cols c v es) := by
  unfold applyToRow
  split_ifs
  · exact hs
  · exact removeElem_sorted hs
  · exact upsertElem_sorted hs

theorem insertNZ_mem {cols r c : Int} {v : Val} :
    ∀ {l : List RowNode} {rw'}, rw' ∈ insertNZ cols r c v l →
      rw'.row = r ∨ rw' ∈ l := by
  intro l
  induction l with
  | nil => intro rw' h; simp [insertNZ] at h; simp [h]
  | cons rw rest ih =>
    intro rw' h
    unfold insertNZ at h
    split_ifs at h with h1 h2
    · rcases List.mem_cons.1 h with h' | h'
      · exact Or.inr (h' ▸ List.mem_cons_self _ _)
      · rcases ih h' with h'' | h''
        · exact Or.inl h''
        · exact Or.inr (List.mem_cons_of_mem _ h'')
    · rcases List.mem_cons.1 h with h' | h'
      · exact Or.inl (by rw [h'])
      · exact Or.inr (List.mem_cons_of_mem _ h')
    · rcases List.mem_cons.1 h with h' | h'
      · exact Or.inl (by rw [h'])
      · exact Or.inr h'

theorem insertNZ_rowsSorted {cols r c : Int} {v : Val} :
    ∀ {l : List RowNode}, RowsSorted l → RowsSorted (insertNZ cols r c v l) := by
  intro l
  induction l with
  | nil => intro _; simp [insertNZ, RowsSorted]
  | cons rw rest ih =>
    intro hs
    rw [RowsSorted, List.pairwise_cons] at hs
    obtain ⟨h1, h2⟩ := hs
    unfold insertNZ
    split_ifs with hlt heq
    · rw [RowsSorted, List.pairwise_cons]
      refine ⟨fun b hb => ?_, ih h2⟩
      rcases insertNZ_mem hb with h | h
      · omega
      · exact h1 b h
    · rw [RowsSorted, List.pairwise_cons]
      refine ⟨fun b hb => ?_, h2⟩
      have := h1 b hb
      show r < b.row
      omega
    · have hgt : r < rw.row := by omega
      rw [RowsSorted, List.pairwise_cons]
      constructor
      · intro b hb
        rcases List.mem_cons.1 hb with h | h
        · rw [h]; exact hgt
        · exact lt_trans hgt (h1 b h)
      · rw [List.pairwise_cons]
        exact ⟨h1, h2⟩

theorem insertNZ_elemsSorted {cols r c : Int} {v : Val} :
    ∀ {l : List RowNode}, (∀ rw ∈ l, ElemsSorted rw.elements) →
      ∀ rw' ∈ insertNZ cols r c v l, ElemsSorted rw'.elements := by
  intro l
  induction l with
  | nil =>
    intro _ rw' h
    simp [insertNZ] at h
    rw [h]
    exact applyToRow_sorted (by simp [ElemsSorted])
  | cons rw rest ih =>
    intro hall rw' h
    unfold insertNZ at h
    split_ifs at h with h1 h2
    · rcases List.mem_cons.1 h with h' | h'
      · exact h' ▸ hall rw (List.mem_cons_self _ _)
      · exact ih (fun x hx => hall x (List.mem_cons_of_mem _ hx)) rw' h'
    · rcases List.mem_cons.1 h with h' | h'
      · rw [h']
        exact applyToRow_sorted (hall rw (List.mem_cons_self _ _))
      · exact hall rw' (List.mem_cons_of_mem _ h')
    · rcases List.mem_cons.1 h with h' | h'
      · rw [h']
        exact applyToRow_sorted (by simp [ElemsSorted])
      · exact hall rw' h'

theorem removeAtRow_mem {r c : Int} :
    ∀ {l : List RowNode} {rw'}, rw' ∈ removeAtRow r c l →
      rw'.row = r ∨ rw' ∈ l := by
  intro l
  induction l with
  | nil => intro rw' h; simp [removeAtRow] at h
  | cons rw rest ih =>
    intro rw' h
    unfold removeAtRow at h
    split_ifs at h with h1 h2
    · rcases List.mem_cons.1 h with h' | h'
      · exact Or.inr (h' ▸ List.mem_cons_self _ _)
      · rcases ih h' with h'' | h''
        · exact Or.inl h''
        · exact Or.inr (List.mem_cons_of_mem _ h'')
    · rcases List.mem_cons.1 h with h' | h'
      · exact Or.inl (by rw [h'])
      · exact Or.inr (List.mem_cons_of_mem _ h')
    · exact Or.inr h

theorem removeAtRow_rowsSorted {r c : Int} :
    ∀ {l : List RowNode}, RowsSorted l → RowsSorted (removeAtRow r c l) := by
  intro l
  induction l with
  | nil => intro _; simp [removeAtRow, RowsSorted]
  | cons rw rest ih =>
    intro hs
    rw [RowsSorted, List.pairwise_cons] at hs
    obtain ⟨h1, h2⟩ := hs
    unfold removeAtRow
    split_ifs with h1' h2'
    · rw [RowsSorted, List.pairwise_cons]
      refine ⟨fun b hb => ?_, ih h2⟩
      rcases removeAtRow_mem hb with h | h
      · omega
      · exact h1 b h
    · rw [RowsSorted, List.pairwise_cons]
      refine ⟨fun b hb => ?_, h2⟩
      have := h1 b hb
      show r < b.row
      omega
    · rw [RowsSorted, List.pairwise_cons]
      exact ⟨h1, h2⟩

theorem removeAtRow_elemsSorted {r c : Int} :
    ∀ {l : List RowNode}, (∀ rw ∈ l, ElemsSorted rw.elements) →
      ∀ rw' ∈ removeAtRow r c l, ElemsSorted rw'.elements := by
  intro l
  induction l with
  | nil => intro _ rw' h; simp [removeAtRow] at h
  | cons rw rest ih =>
    intro hall rw' h
    unfold removeAtRow at h
    split_ifs at h with h1 h2
    · rcases List.mem_cons.1 h with h' | h'
      · exact h' ▸ hall rw (List.mem_cons_self _ _)
      · exact ih (fun x hx => hall x (List.mem_cons_of_mem _ hx)) rw' h'
    · rcases List.mem_cons.1 h with h' | h'
      · rw [h']
        exact removeElem_sorted (hall rw (List.mem_cons_self _ _))
      · exact hall rw' (List.mem_cons_of_mem _ h')
    · exact hall rw' h

theorem cleanupEmptyRows_mem {l : List RowNode} {rw' : RowNode}
    (h : rw' ∈ cleanupEmptyRows l) : rw' ∈ l :=
  (List.mem_filter.1 h).1

theorem cleanupEmptyRows_rowsSorted {l : List RowNode} (hs : RowsSorted l) :
    RowsSorted (cleanupEmptyRows l) :=
  hs.sublist (List.filter_sublist l)

theorem insertZ_rowsSorted {r c : Int} {l : List RowNode} (hs : RowsSorted l) :
    RowsSorted (insertZ r c l) := by
  unfold insertZ
  cases lookupRowScan r l with
  | none => exact hs
  | some es =>
    simp only
    split_ifs
    · exact cleanupEmptyRows_rowsSorted (removeAtRow_rowsSorted hs)
    · exact removeAtRow_rowsSorted hs

theorem insertZ_elemsSorted {r c : Int} {l : List RowNode}
    (hall : ∀ rw ∈ l, ElemsSorted rw.elements) :
    ∀ rw' ∈ insertZ r c l, ElemsSorted rw'.elements := by
  unfold insertZ
  cases lookupRowScan r l with
  | none => exact hall
  | some es =>
    simp only
    split_ifs
    · intro rw' h
      exact removeAtRow_elemsSorted hall rw' (cleanupEmptyRows_mem h)
    · exact removeAtRow_elemsSorted hall

theorem ins_inv2 {m : SparseMatrix} (r c : Int) (v : Val) (h : Inv2 m) :
    Inv2 (m.ins r c v) := by
  obtain ⟨hrs, hes⟩ := h
  unfold SparseMatrix.ins insertE
  split_ifs <;>
    first
      | exact ⟨hrs, hes⟩
      | exact ⟨insertZ_rowsSorted hrs, insertZ_elemsSorted hes⟩
      | exact ⟨insertNZ_rowsSorted hrs, insertNZ_elemsSorted hes⟩

theorem applyInserts_inv2 {m : SparseMatrix}
    (ops : List (Int × Int × Val)) (h : Inv2 m) : Inv2 (applyInserts m ops) := by
  induction ops generalizing m with
  | nil => exact h
  | cons t rest ih => exact ih (ins_inv2 t.1 t.2.1 t.2.2 h)

/-- C2: after any finite sequence of `insert` calls on a freshly constructed
    matrix, stored rows are strictly ascending by row index (hence each index
    occurs at most once) and each row's elements are strictly ascending by
    column (hence each column occurs at most once). -/
theorem inserts_keep_storage_sorted (rdim cdim : Int)
    (hr : 0 < rdim) (hc : 0 < cdim) (ops : List (Int × Int × Val)) :
    (applyInserts ⟨rdim, cdim, []⟩ ops).rowList.Pairwise
      (fun a b => a.row < b.row) ∧
    ∀ rw ∈ (applyInserts ⟨rdim, cdim, []⟩ ops).rowList,
      rw.elements.Pairwise (fun a b => a.1 < b.1) :=
  applyInserts_inv2 ops ⟨List.Pairwise.nil, by simp⟩

/-! ## The test-only variant (claim C5)

`src/test_matrix.cpp` declares its own `SparseMatrix` class.  Its node
structures and every member it shares with the CLI variant are embedded
below, translated from that file; the data types coincide because the struct
declarations are identical.  The test variant lacks `subtract`,
`scalarDivide`, `determinant`, `inverse` and `countNonZero`. -/

namespace TestVariant

/-- Test variant of `insertIntoRow`'s nonzero element splice. -/
def upsertElem (c : Int) (v : Val) : List (Int × Val) → List (Int × Val)
  | [] => [(c, v)]
  | e :: rest =>
    if c < e.1 then (c, v) :: e :: rest
    else if e.1 = c then (c, v) :: rest
    else e :: upsertElem c v rest

/-- Test variant of `removeFromRow`. -/
def removeElem (c : Int) : List (Int × Val) → List (Int × Val)
  | [] => []
  | e :: rest => if e.1 = c then rest else e :: removeElem c rest

/-- Test variant of `get`'s inner element scan. -/
def lookupElemScan (c : Int) : List (Int × Val) → Val
  | [] => 0
  | e :: rest =>
    if e.1 < c then lookupElemScan c rest
    else if e.1 = c then e.2 else 0

/-- Test variant of `insertIntoRow`'s effect on one element list. -/
def applyToRow (cols c : Int) (v : Val) (es : List (Int × Val)) : List (Int × Val) :=
  if c < 0 ∨ cols ≤ c then es
  else if |v| < eps then removeElem c es
  else upsertElem c v es

/-- Test variant of `getRowNode(r, true)` + `insertIntoRow`. -/
def insertNZ (cols r c : Int) (v : Val) : List RowNode → List RowNode
  | [] => [⟨r, applyToRow cols c v []⟩]
  | rw :: rest =>
    if rw.row < r then rw :: insertNZ cols r c v rest
    else if rw.row = r then ⟨r, applyToRow cols c v rw.elements⟩ :: rest
    else ⟨r, applyToRow cols c v []⟩ :: rw :: rest

/-- Test variant of the non-creating row scan. -/
def lookupRowScan (r : Int) : List RowNode → Option (List (Int × Val))
  | [] => none
  | rw :: rest =>
    if rw.row < r then lookupRowScan r rest
    else if rw.row = r then some rw.elements else none

/-- Test variant of `removeFromRow` through the located row. -/
def removeAtRow (r c : Int) : List RowNode → List RowNode
  | [] => []
  | rw :: rest =>
    if rw.row < r then rw :: removeAtRow r c rest
    else if rw.row = r then ⟨r, removeElem c rw.elements⟩ :: rest
    else rw :: rest

/-- Test variant of `cleanupEmptyRows`. -/
def cleanupEmptyRows (l : List RowNode) : List RowNode :=
  l.filter (fun rw => !rw.elements.isEmpty)

/-- Test variant of the below-threshold branch of `insert`. -/
def insertZ (r c : Int) (l : List RowNode) : List RowNode :=
  match lookupRowScan r l with
  | none => l
  | some es =>
    let l' := removeAtRow r c l
    if (removeElem c es).isEmpty then cleanupEmptyRows l' else l'

/-- Test variant of `insert` with its exception behaviour. -/
def insertE (m : SparseMatrix) (r c : Int) (v : Val) :
    Option String × SparseMatrix :=
  if |v| < eps then
    if r < 0 ∨ m.rows ≤ r then (some "Row index out of range", m)
    else (none, { m with rowList := insertZ r c m.rowList })
  else
    if r < 0 ∨ m.rows ≤ r then (some "Row index out of range", m)
    else
      let l := insertNZ m.cols r c v m.rowList
      if c < 0 ∨ m.cols ≤ c then
        (some "Column index out of range", { m with rowList := l })
      else (none, { m with rowList := l })

/-- Test variant of `insert` from the caller's viewpoint. -/
def insert (m : SparseMatrix) (r c : Int) (v : Val) :
    Except String SparseMatrix :=
  match insertE m r c v with
  | (none, m') => .ok m'
  | (some e, _) => .error e

/-- Test variant of the stored-value lookup. -/
def lookupCell (r c : Int) (l : List RowNode) : Val :=
  match lookupRowScan r l with
  | none => 0
  | some es => lookupElemScan c es

/-- Test variant of `get`. -/
def get (m : SparseMatrix) (r c : Int) : Except String Val :=
  if r < 0 ∨ m.rows ≤ r ∨ c < 0 ∨ m.cols ≤ c then .error "Index out of range"
  else .ok (lookupCell r c m.rowList)

/-- Test variant of the constructor. -/
def make (r c : Int) : Except String SparseMatrix :=
  if r ≤ 0 ∨ c ≤ 0 then .error "Matrix dimensions must be positive"
  else .ok ⟨r, c, []⟩

/-- Test variant of the stored-cell traversal order. -/
def cellsOf : List RowNode → List (Int × Int × Val)
  | [] => []
  | rw :: rest => rw.elements.map (fun e => (rw.row, e.1, e.2)) ++ cellsOf rest

/-- Test variant of `add`'s first loop. -/
def copyInLoop (m : SparseMatrix) (l : List (Int × Int × Val)) :
    Except String SparseMatrix :=
  l.foldlM (fun acc t => insert acc t.1 t.2.1 t.2.2) m

/-- Test variant of `add`'s second loop. -/
def addInLoop (m : SparseMatrix) (l : List (Int × Int × Val)) :
    Except String SparseMatrix :=
  l.foldlM (fun acc t => do
    let cur ← get acc t.1 t.2.1
    insert acc t.1 t.2.1 (cur + t.2.2)) m

/-- Test variant of `add`. -/
def add (a b : SparseMatrix) : Except String SparseMatrix :=
  if a.rows ≠ b.rows ∨ a.cols ≠ b.cols then
    .error "Matrix dimensions do not match for addition"
  else do
    let r0 ← make a.rows a.cols
    let r1 ← copyInLoop r0 (cellsOf a.rowList)
    addInLoop r1 (cellsOf b.rowList)

/-- Test variant of `scalarMultiply`. -/
def scalarMultiply (m : SparseMatrix) (k : Val) : Except String SparseMatrix := do
  let r0 ← make m.rows m.cols
  if |k| < eps then pure r0
  else
    (cellsOf m.rowList).foldlM (fun acc t =>
      let nv := t.2.2 * k
      if eps ≤ |nv| then insert acc t.1 t.2.1 nv else pure acc) r0

/-- Test variant of `multiply`. -/
def multiply (a b : SparseMatrix) : Except String SparseMatrix :=
  if a.cols ≠ b.rows then
    .error "Matrix dimensions do not match for multiplication"
  else do
    let r0 ← make a.rows b.cols
    a.rowList.foldlM (fun acc rw =>
      ((List.range b.cols.toNat).map Int.ofNat).foldlM (fun acc2 j => do
        let sum ← rw.elements.foldlM (fun s e => do
          let v2 ← get b e.1 j
          pure (if eps ≤ |v2| then s + e.2 * v2 else s)) (0 : Val)
        if eps ≤ |sum| then insert acc2 rw.row j sum else pure acc2) acc) r0

/-- Test variant of `transpose`. -/
def transpose (m : SparseMatrix) : Except String SparseMatrix := do
  let r0 ← make m.cols m.rows
  (cellsOf m.rowList).foldlM (fun acc t => insert acc t.2.1 t.1 t.2.2) r0

end TestVariant

theorem upsertElemT_eq : TestVariant.upsertElem = upsertElem := by
  funext c v es
  induction es with
  | nil => rfl
  | cons e rest ih =>
    simp only [TestVariant.upsertElem, upsertElem]
    rw [ih]

theorem removeElemT_eq : TestVariant.removeElem = removeElem := by
  funext c es
  induction es with
  | nil => rfl
  | cons e rest ih =>
    simp only [TestVariant.removeElem, removeElem]
    rw [ih]

theorem lookupElemScanT_eq : TestVariant.lookupElemScan = lookupElemScan := by
  funext c es
  induction es with
  | nil => rfl
  | cons e rest ih =>
    simp only [TestVariant.lookupElemScan, lookupElemScan]
    rw [ih]

theorem applyToRowT_eq : TestVariant.applyToRow = applyToRow := by
  funext cols c v es
  simp only [TestVariant.applyToRow, applyToRow, removeElemT_eq, upsertElemT_eq]

theorem insertNZT_eq : TestVariant.insertNZ = insertNZ := by
  funext cols r c v l
  induction l with
  | nil => simp only [TestVariant.insertNZ, insertNZ, applyToRowT_eq]
  | cons rw rest ih =>
    simp only [TestVariant.insertNZ, insertNZ, applyToRowT_eq]
    rw [ih]

theorem lookupRowScanT_eq : TestVariant.lookupRowScan = lookupRowScan := by
  funext r l
  induction l with
  | nil => rfl
  | cons rw rest ih =>
    simp only [TestVariant.lookupRowScan, lookupRowScan]
    rw [ih]

theorem removeAtRowT_eq : TestVariant.removeAtRow = removeAtRow := by
  funext r c l
  induction l with
  | nil => rfl
  | cons rw rest ih =>
    simp only [TestVariant.removeAtRow, removeAtRow, removeElemT_eq]
    rw [ih]

theorem cleanupEmptyRowsT_eq : TestVariant.cleanupEmptyRows = cleanupEmptyRows := by
  funext l
  rfl

theorem insertZT_eq : TestVariant.insertZ = insertZ := by
  funext r c l
  simp only [TestVariant.insertZ, insertZ, lookupRowScanT_eq, removeAtRowT_eq,
    cleanupEmptyRowsT_eq, removeElemT_eq]

theorem insertET_eq : TestVariant.insertE = insertE := by
  funext m r c v
  simp only [TestVariant.insertE, insertE, insertZT_eq, insertNZT_eq]

theorem insertT_eq : TestVariant.insert = SparseMatrix.insert := by
  funext m r c v
  unfold TestVariant.insert SparseMatrix.insert
  rw [insertET_eq]

theorem lookupCellT_eq : TestVariant.lookupCell = lookupCell := by
  funext r c l
  simp only [TestVariant.lookupCell, lookupCell, lookupRowScanT_eq,
    lookupElemScanT_eq]

theorem getT_eq : TestVariant.get = SparseMatrix.get := by
  funext m r c
  simp only [TestVariant.get, SparseMatrix.get, lookupCellT_eq]

theorem makeT_eq : TestVariant.make = SparseMatrix.make := by
  funext r c
  rfl

theorem cellsOfT_eq : TestVariant.cellsOf = cellsOf := by
  funext l
  induction l with
  | nil => rfl
  | cons rw rest ih =>
    simp only [TestVariant.cellsOf, cellsOf]
    rw [ih]

theorem copyInLoopT_eq : TestVariant.copyInLoop = copyInLoop := by
  funext m l
  simp only [TestVariant.copyInLoop, copyInLoop, insertT_eq]

theorem addInLoopT_eq : TestVariant.addInLoop = addInLoop := by
  funext m l
  simp only [TestVariant.addInLoop, addInLoop, insertT_eq, getT_eq]

theorem addT_eq : TestVariant.add = SparseMatrix.add := by
  funext a b
  simp only [TestVariant.add, SparseMatrix.add, makeT_eq, cellsOfT_eq,
    copyInLoopT_eq, addInLoopT_eq]

theorem scalarMultiplyT_eq : TestVariant.scalarMultiply = SparseMatrix.scalarMultiply := by
  funext m k
  simp only [TestVariant.scalarMultiply, SparseMatrix.scalarMultiply, makeT_eq,
    cellsOfT_eq, insertT_eq]

theorem multiplyT_eq : TestVariant.multiply = SparseMatrix.multiply := by
  funext a b
  simp only [TestVariant.multiply, SparseMatrix.multiply, makeT_eq, getT_eq,
    insertT_eq]

theorem transposeT_eq : TestVariant.transpose = SparseMatrix.transpose := by
  funext m
  simp only [TestVariant.transpose, SparseMatrix.transpose, makeT_eq,
    cellsOfT_eq, insertT_eq]

/-- C5: the CLI variant (`matrice.cpp`) and the test-only variant
    (`test_matrix.cpp`) agree, as whole functions, on every operation both
    provide: construction, insert (including its exceptional state), get,
    add, scalarMultiply, multiply and transpose. -/
theorem variants_behaviorally_equal :
    TestVariant.make = SparseMatrix.make ∧
    TestVariant.insertE = insertE ∧
    TestVariant.insert = SparseMatrix.insert ∧
    TestVariant.get = SparseMatrix.get ∧
    TestVariant.add = SparseMatrix.add ∧
    TestVariant.scalarMultiply = SparseMatrix.scalarMultiply ∧
    TestVariant.multiply = SparseMatrix.multiply ∧
    TestVariant.transpose = SparseMatrix.transpose :=
  ⟨makeT_eq, insertET_eq, insertT_eq, getT_eq, addT_eq, scalarMultiplyT_eq,
    multiplyT_eq, transposeT_eq⟩

/-! ## Lookup behaviour of the mutators (groundwork for C4, C6, C7, C8) -/

theorem eps_pos : 0 < eps := by norm_num [eps]

/-- Unfolding equation for the inner scan on a cons cell. -/
theorem lookupElemScan_cons (c : Int) (e : Int × Val) (rest : List (Int × Val)) :
    lookupElemScan c (e :: rest) =
      if e.1 < c then lookupElemScan c rest
      else if e.1 = c then e.2 else 0 := rfl

theorem lookupElemScan_gt {c : Int} :
    ∀ {es : List (Int × Val)}, (∀ e ∈ es, c < e.1) → lookupElemScan c es = 0 := by
  intro es
  induction es with
  | nil => intro _; rfl
  | cons e rest ih =>
    intro h
    have he := h e (List.mem_cons_self _ _)
    rw [lookupElemScan_cons, if_neg (by omega), if_neg (by omega)]

theorem lookupElemScan_upsert (c c' : Int) (v : Val) :
    ∀ es, lookupElemScan c' (upsertElem c v es) =
      if c' = c then v else lookupElemScan c' es := by
  intro es
  induction es with
  | nil =>
    simp only [upsertElem, lookupElemScan]
    split_ifs <;> first | rfl | omega
  | cons e rest ih =>
    simp only [upsertElem]
    split_ifs with h1 h2 <;>
      (try simp only [lookupElemScan_cons]) <;>
      (try rw [ih]) <;>
      (try split_ifs) <;>
      first | rfl | omega

theorem lookupElemScan_remove (c c' : Int) :
    ∀ {es}, ElemsSorted es →
      lookupElemScan c' (removeElem c es) =
        if c' = c then 0 else lookupElemScan c' es := by
  intro es
  induction es with
  | nil =>
    intro _
    simp only [removeElem, lookupElemScan]
    split_ifs <;> rfl
  | cons e rest ih =>
    intro hs
    rw [ElemsSorted, List.pairwise_cons] at hs
    obtain ⟨h1, h2⟩ := hs
    simp only [removeElem]
    split_ifs with heq <;>
      (try simp only [lookupElemScan_cons]) <;>
      (try rw [ih h2]) <;>
      (try split_ifs) <;>
      first
        | rfl
        | omega
        | exact lookupElemScan_gt (fun x hx => by have := h1 x hx; omega)

theorem lookupElemScan_mem {c : Int} {w : Val} :
    ∀ {es}, ElemsSorted es → (c, w) ∈ es → lookupElemScan c es = w := by
  intro es
  induction es with
  | nil => intro _ h; simp at h
  | cons e rest ih =>
    intro hs hm
    rw [ElemsSorted, List.pairwise_cons] at hs
    obtain ⟨h1, h2⟩ := hs
    rcases List.mem_cons.1 hm with h | h
    · rw [lookupElemScan_cons, ← h]
      split_ifs <;> first | rfl | omega
    · have hlt : e.1 < c := h1 (c, w) h
      rw [lookupElemScan_cons, if_pos hlt]
      exact ih h2 h

theorem upsertElem_ne_nil (c : Int) (v : Val) :
    ∀ es, upsertElem c v es ≠ [] := by
  intro es
  cases es with
  | nil => simp [upsertElem]
  | cons e rest =>
    unfold upsertElem
    split_ifs <;> simp

/-- Unfolding equation for the outer scan on a cons cell. -/
theorem lookupRowScan_cons (r : Int) (rw : RowNode) (rest : List RowNode) :
    lookupRowScan r (rw :: rest) =
      if rw.row < r then lookupRowScan r rest
      else if rw.row = r then some rw.elements else none := rfl

theorem lookupRowScan_gt {r : Int} :
    ∀ {l : List RowNode}, (∀ rw ∈ l, r < rw.row) → lookupRowScan r l = none := by
  intro l
  induction l with
  | nil => intro _; rfl
  | cons rw rest ih =>
    intro h
    have := h rw (List.mem_cons_self _ _)
    rw [lookupRowScan_cons, if_neg (by omega), if_neg (by omega)]

theorem lookupRowScan_mem {r : Int} :
    ∀ {l : List RowNode} {es}, lookupRowScan r l = some es →
      ∃ rw ∈ l, rw.row = r ∧ rw.elements = es := by
  intro l
  induction l with
  | nil => intro es h; simp [lookupRowScan] at h
  | cons rw rest ih =>
    intro es h
    rw [lookupRowScan_cons] at h
    split_ifs at h with h1 h2
    · obtain ⟨rw', hm, hr, he⟩ := ih h
      exact ⟨rw', List.mem_cons_of_mem _ hm, hr, he⟩
    · exact ⟨rw, List.mem_cons_self _ _, h2, Option.some_inj.1 h⟩

theorem lookupRowScan_unique :
    ∀ {l : List RowNode}, RowsSorted l → ∀ {rw}, rw ∈ l →
      lookupRowScan rw.row l = some rw.elements := by
  intro l
  induction l with
  | nil => intro _ rw h; simp at h
  | cons rw0 rest ih =>
    intro hs rw hm
    rw [RowsSorted, List.pairwise_cons] at hs
    obtain ⟨h1, h2⟩ := hs
    rcases List.mem_cons.1 hm with h | h
    · subst h
      rw [lookupRowScan_cons, if_neg (by omega), if_pos rfl]
    · have := h1 rw h
      rw [lookupRowScan_cons, if_pos this]
      exact ih h2 h

theorem lookupRowScan_insertNZ (cols r c : Int) (v : Val) (r' : Int) :
    ∀ l, lookupRowScan r' (insertNZ cols r c v l) =
      if r' = r then some (applyToRow cols c v ((lookupRowScan r l).getD []))
      else lookupRowScan r' l := by
  intro l
  induction l with
  | nil =>
    simp only [insertNZ, lookupRowScan]
    split_ifs <;> first | rfl | omega
  | cons rw rest ih =>
    simp only [insertNZ]
    split_ifs with h1 h2 <;>
      (try simp only [lookupRowScan_cons]) <;>
      (try rw [ih]) <;>
      (try split_ifs) <;>
      (try simp only [Option.getD_some, Option.getD_none]) <;>
      first | rfl | omega

theorem lookupRowScan_removeAtRow (r c r' : Int) :
    ∀ l, lookupRowScan r' (removeAtRow r c l) =
      if r' = r then (lookupRowScan r l).map (removeElem c)
      else lookupRowScan r' l := by
  intro l
  induction l with
  | nil =>
    simp only [removeAtRow, lookupRowScan]
    split_ifs <;> rfl
  | cons rw rest ih =>
    simp only [removeAtRow]
    split_ifs with h1 h2 <;>
      (try simp only [lookupRowScan_cons]) <;>
      (try rw [ih]) <;>
      (try split_ifs) <;>
      (try simp only [Option.map_some', Option.map_none']) <;>
      first | rfl | omega

theorem lookupCell_cleanup (r c : Int) :
    ∀ {l : List RowNode}, RowsSorted l →
      lookupCell r c (cleanupEmptyRows l) = lookupCell r c l := by
  intro l
  induction l with
  | nil => intro _; rfl
  | cons rw rest ih =>
    intro hs
    rw [RowsSorted, List.pairwise_cons] at hs
    obtain ⟨h1, h2⟩ := hs
    by_cases he : rw.elements.isEmpty
    · have hcl : cleanupEmptyRows (rw :: rest) = cleanupEmptyRows rest := by
        simp [cleanupEmptyRows, List.filter_cons, he]
      rw [hcl, ih h2]
      unfold lookupCell
      rw [lookupRowScan_cons]
      split_ifs with g1 g2
      · rfl
      · have hn : lookupRowScan r rest = none :=
          lookupRowScan_gt (fun x hx => by have := h1 x hx; omega)
        rw [hn, List.isEmpty_iff.1 he]
        rfl
      · have hn : lookupRowScan r rest = none :=
          lookupRowScan_gt (fun x hx => by have := h1 x hx; omega)
        rw [hn]
    · have hcl : cleanupEmptyRows (rw :: rest) = rw :: cleanupEmptyRows rest := by
        simp [cleanupEmptyRows, List.filter_cons, he]
      rw [hcl]
      unfold lookupCell
      rw [lookupRowScan_cons, lookupRowScan_cons]
      split_ifs with g1 g2
      · show lookupCell r c (cleanupEmptyRows rest) = lookupCell r c rest
        exact ih h2
      · rfl
      · rfl

theorem lookupCell_removeAtRow (r c r' c' : Int) {l : List RowNode}
    (hes : ∀ rw ∈ l, ElemsSorted rw.elements) :
    lookupCell r' c' (removeAtRow r c l) =
      if r' = r ∧ c' = c then 0 else lookupCell r' c' l := by
  unfold lookupCell
  rw [lookupRowScan_removeAtRow]
  by_cases hr' : r' = r
  · subst hr'
    rw [if_pos rfl]
    cases hscan : lookupRowScan r' l with
    | none =>
      simp only [Option.map_none']
      split_ifs <;> rfl
    | some es =>
      obtain ⟨rw0, hm0, _, helem0⟩ := lookupRowScan_mem hscan
      have hes0 : ElemsSorted es := helem0 ▸ hes rw0 hm0
      simp only [Option.map_some']
      show lookupElemScan c' (removeElem c es) = _
      rw [lookupElemScan_remove c c' hes0]
      by_cases hcc : c' = c
      · rw [if_pos hcc, if_pos (by simp [hcc])]
      · rw [if_neg hcc, if_neg (by simp [hcc])]
  · rw [if_neg hr', if_neg (by simp [hr'])]

theorem lookupCell_insertNZ (cols r c : Int) (v : Val) (r' c' : Int)
    (l : List RowNode) (hc : ¬(c < 0 ∨ cols ≤ c)) (hv : ¬(|v| < eps)) :
    lookupCell r' c' (insertNZ cols r c v l) =
      if r' = r ∧ c' = c then v else lookupCell r' c' l := by
  unfold lookupCell
  rw [lookupRowScan_insertNZ]
  by_cases hr' : r' = r
  · subst hr'
    rw [if_pos rfl]
    show lookupElemScan c' (applyToRow cols c v ((lookupRowScan r' l).getD [])) = _
    unfold applyToRow
    rw [if_neg hc, if_neg hv, lookupElemScan_upsert]
    cases hscan : lookupRowScan r' l with
    | none =>
      simp only [Option.getD_none]
      by_cases hcc : c' = c
      · rw [if_pos hcc, if_pos (by simp [hcc])]
      · rw [if_neg hcc, if_neg (by simp [hcc])]
        rfl
    | some es =>
      simp only [Option.getD_some]
      by_cases hcc : c' = c
      · rw [if_pos hcc, if_pos (by simp [hcc])]
      · rw [if_neg hcc, if_neg (by simp [hcc])]
  · rw [if_neg hr', if_neg (by simp [hr'])]

/-- The effect of one `insert` on the stored value at any cell: with in-range
    target indices, the target cell reads the inserted value (`0` when it was
    below threshold) and every other cell is untouched. -/
theorem lookupCell_ins (m : SparseMatrix) (r c : Int) (v : Val)
    (hes : ∀ rw ∈ m.rowList, ElemsSorted rw.elements)
    (hrs : RowsSorted m.rowList)
    (hr0 : 0 ≤ r) (hr1 : r < m.rows) (hc0 : 0 ≤ c) (hc1 : c < m.cols)
    (r' c' : Int) :
    lookupCell r' c' (m.ins r c v).rowList =
      if r' = r ∧ c' = c then (if |v| < eps then 0 else v)
      else lookupCell r' c' m.rowList := by
  unfold SparseMatrix.ins insertE
  by_cases hv : |v| < eps
  · rw [if_pos hv, if_neg (by omega)]
    simp only
    show lookupCell r' c' (insertZ r c m.rowList) = _
    unfold insertZ
    cases hscan : lookupRowScan r m.rowList with
    | none =>
      by_cases hk : r' = r ∧ c' = c
      · rw [if_pos hk, if_pos hv]
        obtain ⟨hr', hc'⟩ := hk
        subst hr'
        subst hc'
        unfold lookupCell
        rw [hscan]
      · rw [if_neg hk]
    | some es =>
      have hstep : lookupCell r' c' (removeAtRow r c m.rowList) =
          if r' = r ∧ c' = c then 0 else lookupCell r' c' m.rowList :=
        lookupCell_removeAtRow r c r' c' hes
      show lookupCell r' c'
          (if (removeElem c es).isEmpty then
            cleanupEmptyRows (removeAtRow r c m.rowList)
          else removeAtRow r c m.rowList) = _
      by_cases hemp : (removeElem c es).isEmpty
      · rw [if_pos hemp, lookupCell_cleanup r' c' (removeAtRow_rowsSorted hrs),
          hstep, if_pos hv]
      · rw [if_neg hemp, hstep, if_pos hv]
  · rw [if_neg hv, if_neg (by omega), if_neg (by omega)]
    simp only
    show lookupCell r' c' (insertNZ m.cols r c v m.rowList) = _
    rw [lookupCell_insertNZ m.cols r c v r' c' m.rowList (by omega) hv]
    rw [if_neg hv]

/-! ## The full class invariant and its preservation -/

/-- Everything the implementation maintains for one stored row: in-range row
    index, at least one element, elements sorted, and every element with an
    in-range column and a value of magnitude at least `eps`. -/
def RowOk (rows cols : Int) (rw : RowNode) : Prop :=
  0 ≤ rw.row ∧ rw.row < rows ∧ rw.elements ≠ [] ∧ ElemsSorted rw.elements ∧
  ∀ e ∈ rw.elements, 0 ≤ e.1 ∧ e.1 < cols ∧ eps ≤ |e.2|

/-- The full representation invariant of a `SparseMatrix`. -/
def InvFull (m : SparseMatrix) : Prop :=
  0 < m.rows ∧ 0 < m.cols ∧ RowsSorted m.rowList ∧
  ∀ rw ∈ m.rowList, RowOk m.rows m.cols rw

theorem removeAtRow_mem' {r c : Int} :
    ∀ {l : List RowNode} {rw'}, rw' ∈ removeAtRow r c l →
      rw' ∈ l ∨ ∃ rw ∈ l, rw.row = r ∧ rw' = ⟨r, removeElem c rw.elements⟩ := by
  intro l
  induction l with
  | nil => intro rw' h; simp [removeAtRow] at h
  | cons rw rest ih =>
    intro rw' h
    unfold removeAtRow at h
    split_ifs at h with h1 h2
    · rcases List.mem_cons.1 h with h' | h'
      · exact Or.inl (h' ▸ List.mem_cons_self _ _)
      · rcases ih h' with h'' | ⟨rw0, hm, hr, he⟩
        · exact Or.inl (List.mem_cons_of_mem _ h'')
        · exact Or.inr ⟨rw0, List.mem_cons_of_mem _ hm, hr, he⟩
    · rcases List.mem_cons.1 h with h' | h'
      · exact Or.inr ⟨rw, List.mem_cons_self _ _, h2, h'⟩
      · exact Or.inl (List.mem_cons_of_mem _ h')
    · exact Or.inl h

theorem insertNZ_mem' {cols r c : Int} {v : Val} :
    ∀ {l : List RowNode} {rw'}, rw' ∈ insertNZ cols r c v l →
      rw' ∈ l ∨ rw' = ⟨r, applyToRow cols c v []⟩ ∨
        ∃ rw ∈ l, rw.row = r ∧ rw' = ⟨r, applyToRow cols c v rw.elements⟩ := by
  intro l
  induction l with
  | nil =>
    intro rw' h
    simp [insertNZ] at h
    exact Or.inr (Or.inl h)
  | cons rw rest ih =>
    intro rw' h
    unfold insertNZ at h
    split_ifs at h with h1 h2
    · rcases List.mem_cons.1 h with h' | h'
      · exact Or.inl (h' ▸ List.mem_cons_self _ _)
      · rcases ih h' with h'' | h'' | ⟨rw0, hm, hr, he⟩
        · exact Or.inl (List.mem_cons_of_mem _ h'')
        · exact Or.inr (Or.inl h'')
        · exact Or.inr (Or.inr ⟨rw0, List.mem_cons_of_mem _ hm, hr, he⟩)
    · rcases List.mem_cons.1 h with h' | h'
      · exact Or.inr (Or.inr ⟨rw, List.mem_cons_self _ _, h2, h'⟩)
      · exact Or.inl (List.mem_cons_of_mem _ h')
    · rcases List.mem_cons.1 h with h' | h'
      · exact Or.inr (Or.inl h')
      · exact Or.inl h'

/-- One in-range `insert` (any value) preserves the full invariant; in
    particular removal of a row's last element cleans the row away, keeping
    rows nonempty. -/
theorem ins_invFull {m : SparseMatrix} {r c : Int} {v : Val}
    (hInv : InvFull m)
    (hr0 : 0 ≤ r) (hr1 : r < m.rows) (hc0 : 0 ≤ c) (hc1 : c < m.cols) :
    InvFull (m.ins r c v) := by
  obtain ⟨hrows, hcols, hrs, hok⟩ := hInv
  have hes : ∀ rw ∈ m.rowList, ElemsSorted rw.elements :=
    fun rw hm => (hok rw hm).2.2.2.1
  have hdr : (m.ins r c v).rows = m.rows := ins_rows m r c v
  have hdc : (m.ins r c v).cols = m.cols := ins_cols m r c v
  have hinv2 : Inv2 (m.ins r c v) := ins_inv2 r c v ⟨hrs, hes⟩
  refine ⟨by omega, by omega, hinv2.1, ?_⟩
  intro rw' hm'
  rw [hdr, hdc]
  have hm'' : rw' ∈ (m.ins r c v).rowList := hm'
  unfold SparseMatrix.ins insertE at hm''
  by_cases hv : |v| < eps
  · rw [if_pos hv, if_neg (by omega)] at hm''
    simp only at hm''
    have hz : rw' ∈ insertZ r c m.rowList := hm''
    unfold insertZ at hz
    cases hscan : lookupRowScan r m.rowList with
    | none =>
      rw [hscan] at hz
      exact hok rw' hz
    | some es =>
      rw [hscan] at hz
      simp only at hz
      obtain ⟨rw0, hm0, hrow0, helem0⟩ := lookupRowScan_mem hscan
      split_ifs at hz with hemp
      · -- the row became empty: cleanup ran, every surviving row is nonempty
        have hzf := List.mem_filter.1 hz
        have hne : rw'.elements ≠ [] := by
          have := hzf.2
          simp at this
          exact this
        rcases removeAtRow_mem' hzf.1 with h' | ⟨rw1, hm1, hr1, he1⟩
        · exact hok rw' h'
        · obtain ⟨_, _, _, hs1, hb1⟩ := hok rw1 hm1
          refine ⟨by simp [he1]; omega, by simp [he1]; omega, hne, ?_, ?_⟩
          · rw [he1]
            exact removeElem_sorted hs1
          · intro e he
            rw [he1] at he
            exact hb1 e ((removeElem_sublist c rw1.elements).mem he)
      · -- the row stayed nonempty
        rcases removeAtRow_mem' hz with h' | ⟨rw1, hm1, hr1, he1⟩
        · exact hok rw' h'
        · obtain ⟨_, _, _, hs1, hb1⟩ := hok rw1 hm1
          have hes1 : rw1.elements = es := by
            have hu := lookupRowScan_unique hrs hm1
            rw [hr1, hscan] at hu
            exact (Option.some_inj.1 hu).symm
          refine ⟨by simp [he1]; omega, by simp [he1]; omega, ?_, ?_, ?_⟩
          · rw [he1]
            simp only
            rw [hes1]
            intro hnil
            rw [hnil] at hemp
            simp at hemp
          · rw [he1]
            exact removeElem_sorted hs1
          · intro e he
            rw [he1] at he
            exact hb1 e ((removeElem_sublist c rw1.elements).mem he)
  · rw [if_neg hv, if_neg (by omega)] at hm''
    simp only at hm''
    have hnz : rw' ∈ insertNZ m.cols r c v m.rowList := by
      by_cases hc' : c < 0 ∨ m.cols ≤ c
      · rw [if_pos hc'] at hm''
        exact hm''
      · rw [if_neg hc'] at hm''
        exact hm''
    have happ : ∀ es, ElemsSorted es → (∀ e ∈ es, 0 ≤ e.1 ∧ e.1 < m.cols ∧ eps ≤ |e.2|) →
        RowOk m.rows m.cols ⟨r, applyToRow m.cols c v es⟩ := by
      intro es hs hb
      have hato : applyToRow m.cols c v es = upsertElem c v es := by
        unfold applyToRow
        rw [if_neg (by omega), if_neg hv]
      refine ⟨by simp; omega, by simp; omega, ?_, ?_, ?_⟩
      · simp only
        rw [hato]
        exact upsertElem_ne_nil c v es
      · simp only
        rw [hato]
        exact upsertElem_sorted hs
      · intro e he
        simp only at he
        rw [hato] at he
        rcases upsertElem_mem he with h' | h'
        · rw [h']
          refine ⟨by simp; omega, by simp; omega, ?_⟩
          simp only
          exact not_lt.1 hv
        · exact hb e h'
    rcases insertNZ_mem' hnz with h' | h' | ⟨rw1, hm1, _, he1⟩
    · exact hok rw' h'
    · rw [h']
      exact happ [] (by simp [ElemsSorted]) (by simp)
    · rw [he1]
      exact happ rw1.elements (hok rw1 hm1).2.2.2.1 (hok rw1 hm1).2.2.2.2

/-! ## Stored cells (claim C4) -/

theorem cellsOf_mem :
    ∀ {l : List RowNode} {t}, t ∈ cellsOf l →
      ∃ rw ∈ l, rw.row = t.1 ∧ (t.2.1, t.2.2) ∈ rw.elements := by
  intro l
  induction l with
  | nil => intro t h; simp [cellsOf] at h
  | cons rw rest ih =>
    intro t h
    unfold cellsOf at h
    rcases List.mem_append.1 h with h' | h'
    · obtain ⟨e, he, heq⟩ := List.mem_map.1 h'
      refine ⟨rw, List.mem_cons_self _ _, ?_, ?_⟩
      · rw [← heq]
      · rw [← heq]
        simpa using he
    · obtain ⟨rw', hm, hr, he⟩ := ih h'
      exact ⟨rw', List.mem_cons_of_mem _ hm, hr, he⟩

theorem countNonZero_foldl :
    ∀ (l : List RowNode) (n : Nat),
      l.foldl (fun n rw => n + rw.elements.length) n = n + (cellsOf l).length := by
  intro l
  induction l with
  | nil => intro n; simp [cellsOf]
  | cons rw rest ih =>
    intro n
    simp only [List.foldl_cons, cellsOf, List.length_append, List.length_map, ih]
    omega

/-- `countNonZero` counts exactly the stored cells. -/
theorem countNonZero_eq_cells (m : SparseMatrix) :
    m.countNonZero = (cellsOf m.rowList).length := by
  unfold SparseMatrix.countNonZero
  rw [countNonZero_foldl]
  omega

/-- C4: after an in-range `insert(r, c, v)`, `get(r, c)` reads back exactly
    `v` when `|v| ≥ eps`; otherwise it reads `0.0` and no cell is stored at
    `(r, c)` — `countNonZero` counts exactly the stored cells, none of which
    sits at `(r, c)`.  The call itself raises no error. -/
theorem insert_get_spec (m : SparseMatrix) (r c : Int) (v : Val)
    (hInv : InvFull m)
    (hr0 : 0 ≤ r) (hr1 : r < m.rows) (hc0 : 0 ≤ c) (hc1 : c < m.cols) :
    (insertE m r c v).1 = none ∧
    (eps ≤ |v| → (m.ins r c v).get r c = .ok v) ∧
    (|v| < eps →
      (m.ins r c v).get r c = .ok 0 ∧
      (∀ t ∈ cellsOf (m.ins r c v).rowList, ¬(t.1 = r ∧ t.2.1 = c)) ∧
      (m.ins r c v).countNonZero = (cellsOf (m.ins r c v).rowList).length) := by
  obtain ⟨hrows, hcols, hrs, hok⟩ := hInv
  have hes : ∀ rw ∈ m.rowList, ElemsSorted rw.elements :=
    fun rw hm => (hok rw hm).2.2.2.1
  have hdr : (m.ins r c v).rows = m.rows := ins_rows m r c v
  have hdc : (m.ins r c v).cols = m.cols := ins_cols m r c v
  have hlook := lookupCell_ins m r c v hes hrs hr0 hr1 hc0 hc1 r c
  rw [if_pos ⟨rfl, rfl⟩] at hlook
  have hget : (m.ins r c v).get r c =
      .ok (lookupCell r c (m.ins r c v).rowList) := by
    unfold SparseMatrix.get
    rw [if_neg (by omega)]
  refine ⟨?_, ?_, ?_⟩
  · rw [insertE_err, if_neg (by omega)]
    split_ifs with h1 h2
    · rfl
    · omega
    · rfl
  · intro hv
    rw [hget, hlook, if_neg (not_lt.2 hv)]
  · intro hv
    have hInv' : InvFull (m.ins r c v) :=
      ins_invFull ⟨hrows, hcols, hrs, hok⟩ hr0 hr1 hc0 hc1
    refine ⟨by rw [hget, hlook, if_pos hv], ?_, countNonZero_eq_cells _⟩
    intro t ht hk
    obtain ⟨rw', hm', hrow', helem'⟩ := cellsOf_mem ht
    obtain ⟨_, _, _, hsort', hbound'⟩ := hInv'.2.2.2 rw' hm'
    have hval : eps ≤ |t.2.2| := (hbound' _ helem').2.2
    have hscan' : lookupRowScan r (m.ins r c v).rowList = some rw'.elements := by
      have := lookupRowScan_unique hInv'.2.2.1 hm'
      rw [hrow', hk.1] at this
      exact this
    have hv2 : lookupCell r c (m.ins r c v).rowList = t.2.2 := by
      unfold lookupCell
      rw [hscan']
      have hmem : (c, t.2.2) ∈ rw'.elements := hk.2 ▸ helem'
      exact lookupElemScan_mem hsort' hmem
    rw [hlook, if_pos hv] at hv2
    rw [← hv2] at hval
    simp at hval
    have hp := eps_pos
    linarith

/-- Witness for C4 on the concrete matrix `[[1,2],[3,4]]`: inserting `7`
    at `(0, 1)` reads back `7`; inserting `0` there reads back `0`. -/
theorem insert_get_spec_witness :
    (insertE mW 0 1 (7 : Val)).1 = none ∧
    (mW.ins 0 1 (7 : Val)).get 0 1 = .ok 7 ∧
    (mW.ins 0 1 (0 : Val)).get 0 1 = .ok 0 := by
  have hInv : InvFull mW := by
    norm_num [InvFull, RowOk, RowsSorted, ElemsSorted, mW, eps,
      List.pairwise_cons]
    refine ⟨⟨by simp, ?_⟩, by simp, ?_⟩ <;>
      rintro a b (⟨ha, hb⟩ | ⟨ha, hb⟩) <;> subst ha <;> subst hb <;> norm_num
  refine ⟨?_, ?_, ?_⟩
  · exact (insert_get_spec mW 0 1 7 hInv (by decide) (by norm_num [mW])
      (by decide) (by norm_num [mW])).1
  · exact (insert_get_spec mW 0 1 7 hInv (by decide) (by norm_num [mW])
      (by decide) (by norm_num [mW])).2.1 (by norm_num [eps])
  · exact ((insert_get_spec mW 0 1 0 hInv (by decide) (by norm_num [mW])
      (by decide) (by norm_num [mW])).2.2 (by norm_num [eps])).1

/-! ## Cell lists as finite maps (groundwork for C6, C7, C8) -/

/-- First cell with key `(r, c)` in a cell list. -/
def findCell (r c : Int) : List (Int × Int × Val) → Option Val
  | [] => none
  | t :: rest => if t.1 = r ∧ t.2.1 = c then some t.2.2 else findCell r c rest

/-- First element with column `c` in an element list. -/
def findElem (c : Int) : List (Int × Val) → Option Val
  | [] => none
  | e :: rest => if e.1 = c then some e.2 else findElem c rest

theorem findCell_none {r c : Int} :
    ∀ {l}, (∀ t ∈ l, ¬(t.1 = r ∧ t.2.1 = c)) → findCell r c l = none := by
  intro l
  induction l with
  | nil => intro _; rfl
  | cons t rest ih =>
    intro h
    unfold findCell
    rw [if_neg (h t (List.mem_cons_self _ _))]
    exact ih fun x hx => h x (List.mem_cons_of_mem _ hx)

theorem findCell_append (r c : Int) :
    ∀ xs ys, findCell r c (xs ++ ys) =
      match findCell r c xs with
      | some w => some w
      | none => findCell r c ys := by
  intro xs ys
  induction xs with
  | nil => rfl
  | cons t rest ih =>
    simp only [List.cons_append, findCell]
    split_ifs with h
    · rfl
    · exact ih

theorem findCell_rowMap (row r c : Int) (es : List (Int × Val)) :
    findCell r c (es.map (fun e => (row, e.1, e.2))) =
      if r = row then findElem c es else none := by
  induction es with
  | nil => simp [findCell, findElem]
  | cons e rest ih =>
    simp only [List.map_cons, findCell, findElem]
    split_ifs with h1 h2 h3 <;>
      first
        | rfl
        | omega
        | (rw [ih, if_pos (by omega)])
        | (rw [ih, if_neg (by omega)])
        | simp_all

theorem findElem_gt {c : Int} :
    ∀ {es : List (Int × Val)}, (∀ e ∈ es, c < e.1) → findElem c es = none := by
  intro es
  induction es with
  | nil => intro _; rfl
  | cons e rest ih =>
    intro h
    have := h e (List.mem_cons_self _ _)
    unfold findElem
    rw [if_neg (by omega)]
    exact ih fun x hx => h x (List.mem_cons_of_mem _ hx)

theorem findElem_scan {c : Int} :
    ∀ {es}, ElemsSorted es → (findElem c es).getD 0 = lookupElemScan c es := by
  intro es
  induction es with
  | nil => intro _; rfl
  | cons e rest ih =>
    intro hs
    rw [ElemsSorted, List.pairwise_cons] at hs
    obtain ⟨h1, h2⟩ := hs
    simp only [findElem, lookupElemScan_cons]
    split_ifs with g1 g2 g3 <;>
      first
        | rfl
        | omega
        | exact ih h2
        | (have hg : findElem c rest = none :=
            findElem_gt (fun x hx => by have := h1 x hx; omega)
           rw [hg]
           rfl)

/-- The traversal-order cell list, read as a finite map, agrees with the
    scan-based cell lookup on a sorted storage. -/
theorem findCell_cells :
    ∀ {l : List RowNode}, RowsSorted l →
      (∀ rw ∈ l, ElemsSorted rw.elements) → ∀ r c,
      (findCell r c (cellsOf l)).getD 0 = lookupCell r c l := by
  intro l
  induction l with
  | nil => intro _ _ r c; rfl
  | cons rw rest ih =>
    intro hs hes r c
    rw [RowsSorted, List.pairwise_cons] at hs
    obtain ⟨h1, h2⟩ := hs
    show (findCell r c (rw.elements.map (fun e => (rw.row, e.1, e.2)) ++
      cellsOf rest)).getD 0 = _
    rw [findCell_append, findCell_rowMap]
    by_cases hr : r = rw.row
    · rw [if_pos hr]
      have hfr : lookupCell r c (rw :: rest) = lookupElemScan c rw.elements := by
        unfold lookupCell
        rw [lookupRowScan_cons, if_neg (by omega), if_pos hr.symm]
      cases hfe : findElem c rw.elements with
      | some w =>
        rw [hfr]
        have := findElem_scan (hes rw (List.mem_cons_self _ _)) (c := c)
        rw [hfe] at this
        exact this
      | none =>
        have hrest : findCell r c (cellsOf rest) = none := by
          apply findCell_none
          intro t ht hk
          obtain ⟨rw', hm', hrow', _⟩ := cellsOf_mem ht
          have := h1 rw' hm'
          omega
        rw [hrest, hfr]
        have := findElem_scan (hes rw (List.mem_cons_self _ _)) (c := c)
        rw [hfe] at this
        exact this
    · rw [if_neg hr]
      by_cases hlt : rw.row < r
      · have hskip : lookupCell r c (rw :: rest) = lookupCell r c rest := by
          unfold lookupCell
          rw [lookupRowScan_cons, if_pos hlt]
        rw [hskip]
        exact ih h2 (fun x hx => hes x (List.mem_cons_of_mem _ hx)) r c
      · have hnone : lookupCell r c (rw :: rest) = 0 := by
          unfold lookupCell
          rw [lookupRowScan_cons, if_neg hlt, if_neg (by omega)]
        have hrest : findCell r c (cellsOf rest) = none := by
          apply findCell_none
          intro t ht hk
          obtain ⟨rw', hm', hrow', _⟩ := cellsOf_mem ht
          have := h1 rw' hm'
          omega
        rw [hrest, hnone]
        rfl

/-! ## Building result matrices by repeated insertion -/

/-- All cells of a list lie inside the given bounds. -/
def CellsIn (rows cols : Int) (l : List (Int × Int × Val)) : Prop :=
  ∀ t ∈ l, 0 ≤ t.1 ∧ t.1 < rows ∧ 0 ≤ t.2.1 ∧ t.2.1 < cols

/-- Unfolding equation for `findCell` on a cons cell. -/
theorem findCell_cons (r c : Int) (t : Int × Int × Val) (rest) :
    findCell r c (t :: rest) =
      if t.1 = r ∧ t.2.1 = c then some t.2.2 else findCell r c rest := rfl

theorem applyInserts_rows : ∀ (l) (m : SparseMatrix),
    (applyInserts m l).rows = m.rows := by
  intro l
  induction l with
  | nil => intro m; rfl
  | cons t rest ih =>
    intro m
    show (applyInserts (m.ins t.1 t.2.1 t.2.2) rest).rows = m.rows
    rw [ih, ins_rows]

theorem applyInserts_cols : ∀ (l) (m : SparseMatrix),
    (applyInserts m l).cols = m.cols := by
  intro l
  induction l with
  | nil => intro m; rfl
  | cons t rest ih =>
    intro m
    show (applyInserts (m.ins t.1 t.2.1 t.2.2) rest).cols = m.cols
    rw [ih, ins_cols]

/-- The pure state fold of `add`/`subtract`'s second loop: read the current
    cell, combine with the incoming value by `f`, insert the result. -/
def accumFold (f : Val → Val → Val) (m : SparseMatrix)
    (l : List (Int × Int × Val)) : SparseMatrix :=
  l.foldl (fun acc t =>
    acc.ins t.1 t.2.1 (f (lookupCell t.1 t.2.1 acc.rowList) t.2.2)) m

theorem accumFold_rows (f : Val → Val → Val) : ∀ (l) (m : SparseMatrix),
    (accumFold f m l).rows = m.rows := by
  intro l
  induction l with
  | nil => intro m; rfl
  | cons t rest ih =>
    intro m
    show (accumFold f (m.ins t.1 t.2.1 _) rest).rows = m.rows
    rw [ih, ins_rows]

theorem accumFold_cols (f : Val → Val → Val) : ∀ (l) (m : SparseMatrix),
    (accumFold f m l).cols = m.cols := by
  intro l
  induction l with
  | nil => intro m; rfl
  | cons t rest ih =>
    intro m
    show (accumFold f (m.ins t.1 t.2.1 _) rest).cols = m.cols
    rw [ih, ins_cols]

theorem applyInserts_invFull :
    ∀ {l} {m : SparseMatrix}, InvFull m → CellsIn m.rows m.cols l →
      InvFull (applyInserts m l) := by
  intro l
  induction l with
  | nil => intro m h _; exact h
  | cons t rest ih =>
    intro m h hin
    obtain ⟨h1, h2, h3, h4⟩ := hin t (List.mem_cons_self _ _)
    show InvFull (applyInserts (m.ins t.1 t.2.1 t.2.2) rest)
    refine ih (ins_invFull h h1 h2 h3 h4) ?_
    intro s hs
    rw [ins_rows, ins_cols]
    exact hin s (List.mem_cons_of_mem _ hs)

theorem accumFold_invFull (f : Val → Val → Val) :
    ∀ {l} {m : SparseMatrix}, InvFull m → CellsIn m.rows m.cols l →
      InvFull (accumFold f m l) := by
  intro l
  induction l with
  | nil => intro m h _; exact h
  | cons t rest ih =>
    intro m h hin
    obtain ⟨h1, h2, h3, h4⟩ := hin t (List.mem_cons_self _ _)
    show InvFull (accumFold f (m.ins t.1 t.2.1 _) rest)
    refine ih (ins_invFull h h1 h2 h3 h4) ?_
    intro s hs
    rw [ins_rows, ins_cols]
    exact hin s (List.mem_cons_of_mem _ hs)

/-- Lookup after folding in a list of distinct, in-range, above-threshold
    cells: last (= only) write wins, absent keys read the base matrix. -/
theorem applyInserts_lookup :
    ∀ {l} {m : SparseMatrix}, Inv2 m → CellsIn m.rows m.cols l →
      l.Pairwise (fun s t => ¬(s.1 = t.1 ∧ s.2.1 = t.2.1)) →
      (∀ t ∈ l, eps ≤ |t.2.2|) →
      ∀ r' c', lookupCell r' c' (applyInserts m l).rowList =
        (findCell r' c' l).getD (lookupCell r' c' m.rowList) := by
  intro l
  induction l with
  | nil => intro m _ _ _ _ r' c'; rfl
  | cons t rest ih =>
    intro m hInv2 hin hdist hval r' c'
    obtain ⟨hb1, hb2, hb3, hb4⟩ := hin t (List.mem_cons_self _ _)
    obtain ⟨hd1, hd2⟩ := List.pairwise_cons.1 hdist
    have hA := lookupCell_ins m t.1 t.2.1 t.2.2 hInv2.2 hInv2.1 hb1 hb2 hb3 hb4
    have hInv2' : Inv2 (m.ins t.1 t.2.1 t.2.2) := ins_inv2 _ _ _ hInv2
    show lookupCell r' c' (applyInserts (m.ins t.1 t.2.1 t.2.2) rest).rowList = _
    rw [ih hInv2'
        (by intro s hs
            rw [ins_rows, ins_cols]
            exact hin s (List.mem_cons_of_mem _ hs))
        hd2 (fun s hs => hval s (List.mem_cons_of_mem _ hs)) r' c']
    rw [findCell_cons]
    by_cases hk : t.1 = r' ∧ t.2.1 = c'
    · rw [if_pos hk]
      have hrest : findCell r' c' rest = none := by
        apply findCell_none
        intro s hs hks
        exact hd1 s hs ⟨by omega, by omega⟩
      rw [hrest]
      simp only [Option.getD_none, Option.getD_some]
      rw [hA, if_pos ⟨hk.1.symm, hk.2.symm⟩,
        if_neg (not_lt.2 (hval t (List.mem_cons_self _ _)))]
    · rw [if_neg hk]
      cases hf : findCell r' c' rest with
      | some w => simp only [Option.getD_some]
      | none =>
        simp only [Option.getD_none]
        rw [hA, if_neg (by omega)]

/-- Lookup after the accumulate-and-insert fold of `add`/`subtract`'s second
    loop, over distinct in-range cells. -/
theorem accumFold_lookup (f : Val → Val → Val) :
    ∀ {l} {m : SparseMatrix}, Inv2 m → CellsIn m.rows m.cols l →
      l.Pairwise (fun s t => ¬(s.1 = t.1 ∧ s.2.1 = t.2.1)) →
      ∀ r' c', lookupCell r' c' (accumFold f m l).rowList =
        match findCell r' c' l with
        | some w =>
          if |f (lookupCell r' c' m.rowList) w| < eps then 0
          else f (lookupCell r' c' m.rowList) w
        | none => lookupCell r' c' m.rowList := by
  intro l
  induction l with
  | nil => intro m _ _ _ r' c'; rfl
  | cons t rest ih =>
    intro m hInv2 hin hdist r' c'
    obtain ⟨hb1, hb2, hb3, hb4⟩ := hin t (List.mem_cons_self _ _)
    obtain ⟨hd1, hd2⟩ := List.pairwise_cons.1 hdist
    have hA := lookupCell_ins m t.1 t.2.1
      (f (lookupCell t.1 t.2.1 m.rowList) t.2.2) hInv2.2 hInv2.1 hb1 hb2 hb3 hb4
    have hInv2' : Inv2 (m.ins t.1 t.2.1
        (f (lookupCell t.1 t.2.1 m.rowList) t.2.2)) := ins_inv2 _ _ _ hInv2
    show lookupCell r' c' (accumFold f (m.ins t.1 t.2.1
        (f (lookupCell t.1 t.2.1 m.rowList) t.2.2)) rest).rowList = _
    rw [ih hInv2'
        (by intro s hs
            rw [ins_rows, ins_cols]
            exact hin s (List.mem_cons_of_mem _ hs))
        hd2 r' c']
    rw [findCell_cons]
    by_cases hk : t.1 = r' ∧ t.2.1 = c'
    · rw [if_pos hk]
      have hrest : findCell r' c' rest = none := by
        apply findCell_none
        intro s hs hks
        exact hd1 s hs ⟨by omega, by omega⟩
      obtain ⟨hk1, hk2⟩ := hk
      subst hk1
      subst hk2
      simp only [hrest]
      rw [hA, if_pos ⟨rfl, rfl⟩]
    · rw [if_neg hk]
      have hbase : lookupCell r' c' (m.ins t.1 t.2.1
          (f (lookupCell t.1 t.2.1 m.rowList) t.2.2)).rowList =
          lookupCell r' c' m.rowList := by
        rw [hA, if_neg (by omega)]
      simp only [hbase]

/-! ## The fallible operations on in-range data never throw -/

theorem get_ok {m : SparseMatrix} {r c : Int}
    (hr0 : 0 ≤ r) (hr1 : r < m.rows) (hc0 : 0 ≤ c) (hc1 : c < m.cols) :
    m.get r c = .ok (lookupCell r c m.rowList) := by
  unfold SparseMatrix.get
  rw [if_neg (by omega)]

theorem insert_ok {m : SparseMatrix} {r c : Int} {v : Val}
    (hr0 : 0 ≤ r) (hr1 : r < m.rows) (hc0 : 0 ≤ c) (hc1 : c < m.cols) :
    m.insert r c v = .ok (m.ins r c v) := by
  have he : (insertE m r c v).1 = none := by
    rw [insertE_err, if_neg (by omega)]
    split_ifs with h1 h2
    · rfl
    · omega
    · rfl
  unfold SparseMatrix.insert SparseMatrix.ins
  cases hp : insertE m r c v with
  | mk e m2 =>
    rw [hp] at he
    have he' : e = none := he
    subst he'
    rfl

theorem copyInLoop_ok :
    ∀ {l} {m : SparseMatrix}, CellsIn m.rows m.cols l →
      copyInLoop m l = .ok (applyInserts m l) := by
  intro l
  induction l with
  | nil => intro m _; rfl
  | cons t rest ih =>
    intro m hin
    obtain ⟨h1, h2, h3, h4⟩ := hin t (List.mem_cons_self _ _)
    show (m.insert t.1 t.2.1 t.2.2 >>= fun acc => copyInLoop acc rest) = _
    rw [insert_ok h1 h2 h3 h4]
    show copyInLoop (m.ins t.1 t.2.1 t.2.2) rest = _
    rw [ih (by
      intro s hs
      rw [ins_rows, ins_cols]
      exact hin s (List.mem_cons_of_mem _ hs))]
    rfl

theorem addInLoop_ok :
    ∀ {l} {m : SparseMatrix}, CellsIn m.rows m.cols l →
      addInLoop m l = .ok (accumFold (fun x y => x + y) m l) := by
  intro l
  induction l with
  | nil => intro m _; rfl
  | cons t rest ih =>
    intro m hin
    obtain ⟨h1, h2, h3, h4⟩ := hin t (List.mem_cons_self _ _)
    show ((m.get t.1 t.2.1 >>= fun cur => m.insert t.1 t.2.1 (cur + t.2.2)) >>=
      fun acc => addInLoop acc rest) = _
    rw [get_ok h1 h2 h3 h4]
    show (m.insert t.1 t.2.1 (lookupCell t.1 t.2.1 m.rowList + t.2.2) >>=
      fun acc => addInLoop acc rest) = _
    rw [insert_ok h1 h2 h3 h4]
    show addInLoop (m.ins t.1 t.2.1 (lookupCell t.1 t.2.1 m.rowList + t.2.2))
      rest = _
    rw [ih (by
      intro s hs
      rw [ins_rows, ins_cols]
      exact hin s (List.mem_cons_of_mem _ hs))]
    rfl

theorem subInLoop_ok :
    ∀ {l} {m : SparseMatrix}, CellsIn m.rows m.cols l →
      subInLoop m l = .ok (accumFold (fun x y => x - y) m l) := by
  intro l
  induction l with
  | nil => intro m _; rfl
  | cons t rest ih =>
    intro m hin
    obtain ⟨h1, h2, h3, h4⟩ := hin t (List.mem_cons_self _ _)
    show ((m.get t.1 t.2.1 >>= fun cur => m.insert t.1 t.2.1 (cur - t.2.2)) >>=
      fun acc => subInLoop acc rest) = _
    rw [get_ok h1 h2 h3 h4]
    show (m.insert t.1 t.2.1 (lookupCell t.1 t.2.1 m.rowList - t.2.2) >>=
      fun acc => subInLoop acc rest) = _
    rw [insert_ok h1 h2 h3 h4]
    show subInLoop (m.ins t.1 t.2.1 (lookupCell t.1 t.2.1 m.rowList - t.2.2))
      rest = _
    rw [ih (by
      intro s hs
      rw [ins_rows, ins_cols]
      exact hin s (List.mem_cons_of_mem _ hs))]
    rfl

/-! ## The cell list of an invariant-respecting matrix -/

theorem cellsIn_of_invFull {m : SparseMatrix} (h : InvFull m) :
    CellsIn m.rows m.cols (cellsOf m.rowList) := by
  intro t ht
  obtain ⟨rw', hm', hrow', helem'⟩ := cellsOf_mem ht
  obtain ⟨hq1, hq2, _, _, hb⟩ := h.2.2.2 rw' hm'
  obtain ⟨he1, he2, _⟩ := hb _ helem'
  exact ⟨by omega, by omega, he1, he2⟩

theorem cellsVal_of_invFull {m : SparseMatrix} (h : InvFull m) :
    ∀ t ∈ cellsOf m.rowList, eps ≤ |t.2.2| := by
  intro t ht
  obtain ⟨rw', hm', _, helem'⟩ := cellsOf_mem ht
  exact ((h.2.2.2 rw' hm').2.2.2.2 _ helem').2.2

theorem cells_distinct :
    ∀ {l : List RowNode}, RowsSorted l →
      (∀ rw ∈ l, ElemsSorted rw.elements) →
      (cellsOf l).Pairwise (fun s t => ¬(s.1 = t.1 ∧ s.2.1 = t.2.1)) := by
  intro l
  induction l with
  | nil => intro _ _; exact List.Pairwise.nil
  | cons rw rest ih =>
    intro hs hes
    rw [RowsSorted, List.pairwise_cons] at hs
    obtain ⟨h1, h2⟩ := hs
    show (rw.elements.map (fun e => (rw.row, e.1, e.2)) ++
      cellsOf rest).Pairwise _
    rw [List.pairwise_append]
    refine ⟨?_, ih h2 (fun x hx => hes x (List.mem_cons_of_mem _ hx)), ?_⟩
    · rw [List.pairwise_map]
      have := hes rw (List.mem_cons_self _ _)
      rw [ElemsSorted] at this
      exact this.imp (fun h hk => by simp at hk; omega)
    · intro s hsm t htm
      obtain ⟨e, _, heq⟩ := List.mem_map.1 hsm
      obtain ⟨rw', hm', hrow', _⟩ := cellsOf_mem htm
      have := h1 rw' hm'
      intro hk
      rw [← heq] at hk
      simp at hk
      omega

theorem lookupElemScan_zero_or_mem (c : Int) :
    ∀ es : List (Int × Val), lookupElemScan c es = 0 ∨
      (c, lookupElemScan c es) ∈ es := by
  intro es
  induction es with
  | nil => exact Or.inl rfl
  | cons e rest ih =>
    rw [lookupElemScan_cons]
    split_ifs with g1 g2
    · rcases ih with h | h
      · exact Or.inl h
      · exact Or.inr (List.mem_cons_of_mem _ h)
    · right
      have he : (c, e.2) = e := by
        obtain ⟨e1, e2⟩ := e
        simp only [Prod.mk.injEq]
        simp at g2
        simp [g2]
      rw [he]
      exact List.mem_cons_self _ _
    · exact Or.inl rfl

/-- A stored value read back is either `0` (absent) or a stored cell's value,
    hence of magnitude at least `eps` under the invariant. -/
theorem lookup_zero_or_big {m : SparseMatrix} (h : InvFull m) (r c : Int) :
    lookupCell r c m.rowList = 0 ∨ eps ≤ |lookupCell r c m.rowList| := by
  unfold lookupCell
  cases hscan : lookupRowScan r m.rowList with
  | none => exact Or.inl rfl
  | some es =>
    obtain ⟨rw0, hm0, _, helem0⟩ := lookupRowScan_mem hscan
    rcases lookupElemScan_zero_or_mem c es with h' | h'
    · exact Or.inl h'
    · right
      have := (h.2.2.2 rw0 hm0).2.2.2.2 (c, lookupElemScan c es)
        (by rw [helem0]; exact h')
      exact this.2.2

/-! ## Cell-wise characterisation of `add` and `subtract` (claims C6, C7) -/

theorem elemsSorted_of_invFull {m : SparseMatrix} (h : InvFull m) :
    ∀ rw ∈ m.rowList, ElemsSorted rw.elements :=
  fun rw hm => (h.2.2.2 rw hm).2.2.2.1

/-- The first loop of `add`/`subtract` rebuilds the left operand: the copy of
    `a`'s cells into a fresh matrix reads back exactly like `a`. -/
theorem phaseOne (a : SparseMatrix) (hA : InvFull a) :
    InvFull (applyInserts ⟨a.rows, a.cols, []⟩ (cellsOf a.rowList)) ∧
    ∀ r c, lookupCell r c
        (applyInserts ⟨a.rows, a.cols, []⟩ (cellsOf a.rowList)).rowList =
      lookupCell r c a.rowList := by
  have hInvE : InvFull ⟨a.rows, a.cols, []⟩ :=
    ⟨hA.1, hA.2.1, List.Pairwise.nil, by simp⟩
  have hcellsA : CellsIn (SparseMatrix.mk a.rows a.cols []).rows
      (SparseMatrix.mk a.rows a.cols []).cols (cellsOf a.rowList) :=
    cellsIn_of_invFull hA
  refine ⟨applyInserts_invFull hInvE hcellsA, ?_⟩
  intro r c
  rw [applyInserts_lookup ⟨hInvE.2.2.1, by simp⟩ hcellsA
    (cells_distinct hA.2.2.1 (elemsSorted_of_invFull hA))
    (cellsVal_of_invFull hA) r c]
  show (findCell r c (cellsOf a.rowList)).getD 0 = _
  exact findCell_cells hA.2.2.1 (elemsSorted_of_invFull hA) r c

/-- The value stored by `add`/`subtract` at each cell: combine the two reads
    with `f`, then zero-suppress. -/
theorem phaseTwo (f : Val → Val → Val) (hf0 : ∀ x, f x 0 = x)
    (a b : SparseMatrix) (hA : InvFull a) (hB : InvFull b)
    (hrows : b.rows = a.rows) (hcols : b.cols = a.cols) :
    InvFull (accumFold f
      (applyInserts ⟨a.rows, a.cols, []⟩ (cellsOf a.rowList))
      (cellsOf b.rowList)) ∧
    ∀ r c, lookupCell r c (accumFold f
        (applyInserts ⟨a.rows, a.cols, []⟩ (cellsOf a.rowList))
        (cellsOf b.rowList)).rowList =
      if |f (lookupCell r c a.rowList) (lookupCell r c b.rowList)| < eps then 0
      else f (lookupCell r c a.rowList) (lookupCell r c b.rowList) := by
  obtain ⟨hInvP1, hlookP1⟩ := phaseOne a hA
  have hdr : (applyInserts ⟨a.rows, a.cols, []⟩ (cellsOf a.rowList)).rows
      = a.rows := applyInserts_rows _ _
  have hdc : (applyInserts ⟨a.rows, a.cols, []⟩ (cellsOf a.rowList)).cols
      = a.cols := applyInserts_cols _ _
  have hcellsB : CellsIn
      (applyInserts ⟨a.rows, a.cols, []⟩ (cellsOf a.rowList)).rows
      (applyInserts ⟨a.rows, a.cols, []⟩ (cellsOf a.rowList)).cols
      (cellsOf b.rowList) := by
    rw [hdr, hdc, ← hrows, ← hcols]
    exact cellsIn_of_invFull hB
  refine ⟨accumFold_invFull f hInvP1 hcellsB, ?_⟩
  intro r c
  rw [accumFold_lookup f ⟨hInvP1.2.2.1, elemsSorted_of_invFull hInvP1⟩
    hcellsB (cells_distinct hB.2.2.1 (elemsSorted_of_invFull hB)) r c]
  have hCLb := findCell_cells hB.2.2.1 (elemsSorted_of_invFull hB) r c
  cases hf : findCell r c (cellsOf b.rowList) with
  | some w =>
    rw [hf] at hCLb
    simp only [Option.getD_some] at hCLb
    simp only [hlookP1, hCLb]
  | none =>
    rw [hf] at hCLb
    simp only [Option.getD_none] at hCLb
    simp only [hlookP1]
    rw [← hCLb, hf0]
    rcases lookup_zero_or_big hA r c with h0 | hbig
    · rw [h0]
      rw [if_pos (by simpa using eps_pos)]
    · rw [if_neg (not_lt.2 hbig)]

/-- C6: `add` is commutative cell-wise — on dimension-matched operands both
    orders succeed and `get` agrees at every index (in range or not); on
    mismatched dimensions both orders fail with the dimension-mismatch
    error. -/
theorem add_commutes (a b : SparseMatrix) (hA : InvFull a) (hB : InvFull b) :
    ((a.rows = b.rows ∧ a.cols = b.cols) →
      ∃ s t, a.add b = .ok s ∧ b.add a = .ok t ∧
        ∀ r c : Int, s.get r c = t.get r c) ∧
    (¬(a.rows = b.rows ∧ a.cols = b.cols) →
      a.add b = .error "Matrix dimensions do not match for addition" ∧
      b.add a = .error "Matrix dimensions do not match for addition") := by
  constructor
  · rintro ⟨hr, hc⟩
    refine ⟨accumFold (fun x y => x + y)
        (applyInserts ⟨a.rows, a.cols, []⟩ (cellsOf a.rowList))
        (cellsOf b.rowList),
      accumFold (fun x y => x + y)
        (applyInserts ⟨b.rows, b.cols, []⟩ (cellsOf b.rowList))
        (cellsOf a.rowList), ?_, ?_, ?_⟩
    · unfold SparseMatrix.add
      rw [if_neg (by omega)]
      show (SparseMatrix.make a.rows a.cols >>= fun r0 =>
        copyInLoop r0 (cellsOf a.rowList) >>= fun r1 =>
        addInLoop r1 (cellsOf b.rowList)) = _
      unfold SparseMatrix.make
      rw [if_neg (by have := hA.1; have := hA.2.1; omega)]
      show (copyInLoop ⟨a.rows, a.cols, []⟩ (cellsOf a.rowList) >>= fun r1 =>
        addInLoop r1 (cellsOf b.rowList)) = _
      rw [copyInLoop_ok (m := ⟨a.rows, a.cols, []⟩) (by exact cellsIn_of_invFull hA)]
      show addInLoop (applyInserts ⟨a.rows, a.cols, []⟩ (cellsOf a.rowList))
        (cellsOf b.rowList) = _
      rw [addInLoop_ok (by
        rw [applyInserts_rows, applyInserts_cols]
        show CellsIn a.rows a.cols _
        rw [hr, hc]
        exact cellsIn_of_invFull hB)]
    · unfold SparseMatrix.add
      rw [if_neg (by omega)]
      show (SparseMatrix.make b.rows b.cols >>= fun r0 =>
        copyInLoop r0 (cellsOf b.rowList) >>= fun r1 =>
        addInLoop r1 (cellsOf a.rowList)) = _
      unfold SparseMatrix.make
      rw [if_neg (by have := hB.1; have := hB.2.1; omega)]
      show (copyInLoop ⟨b.rows, b.cols, []⟩ (cellsOf b.rowList) >>= fun r1 =>
        addInLoop r1 (cellsOf a.rowList)) = _
      rw [copyInLoop_ok (m := ⟨b.rows, b.cols, []⟩) (by exact cellsIn_of_invFull hB)]
      show addInLoop (applyInserts ⟨b.rows, b.cols, []⟩ (cellsOf b.rowList))
        (cellsOf a.rowList) = _
      rw [addInLoop_ok (by
        rw [applyInserts_rows, applyInserts_cols]
        show CellsIn b.rows b.cols _
        rw [← hr, ← hc]
        exact cellsIn_of_invFull hA)]
    · intro r c
      have hS := phaseTwo (fun x y => x + y) (by intro x; simp) a b hA hB
        hr.symm hc.symm
      have hT := phaseTwo (fun x y => x + y) (by intro x; simp) b a hB hA
        hr hc
      have hsr : (accumFold (fun x y => x + y)
          (applyInserts ⟨a.rows, a.cols, []⟩ (cellsOf a.rowList))
          (cellsOf b.rowList)).rows = a.rows := by
        rw [accumFold_rows, applyInserts_rows]
      have hsc : (accumFold (fun x y => x + y)
          (applyInserts ⟨a.rows, a.cols, []⟩ (cellsOf a.rowList))
          (cellsOf b.rowList)).cols = a.cols := by
        rw [accumFold_cols, applyInserts_cols]
      have htr : (accumFold (fun x y => x + y)
          (applyInserts ⟨b.rows, b.cols, []⟩ (cellsOf b.rowList))
          (cellsOf a.rowList)).rows = b.rows := by
        rw [accumFold_rows, applyInserts_rows]
      have htc : (accumFold (fun x y => x + y)
          (applyInserts ⟨b.rows, b.cols, []⟩ (cellsOf b.rowList))
          (cellsOf a.rowList)).cols = b.cols := by
        rw [accumFold_cols, applyInserts_cols]
      unfold SparseMatrix.get
      by_cases hcond : r < 0 ∨ a.rows ≤ r ∨ c < 0 ∨ a.cols ≤ c
      · rw [if_pos (by rw [hsr, hsc]; exact hcond),
          if_pos (by rw [htr, htc]; omega)]
      · rw [if_neg (by rw [hsr, hsc]; exact hcond),
          if_neg (by rw [htr, htc]; omega)]
        rw [hS.2 r c, hT.2 r c]
        simp only [add_comm (lookupCell r c b.rowList)
          (lookupCell r c a.rowList)]
  · intro hne
    constructor
    · unfold SparseMatrix.add
      rw [if_pos (by omega)]
    · unfold SparseMatrix.add
      rw [if_pos (by omega)]

/-- The 2×2 matrix `[[5,6],[7,8]]` of the spec's concrete scenario. -/
def nW : SparseMatrix := ⟨2, 2, [⟨0, [(0, 5), (1, 6)]⟩, ⟨1, [(0, 7), (1, 8)]⟩]⟩

theorem invFull_mW : InvFull mW := by
  norm_num [InvFull, RowOk, RowsSorted, ElemsSorted, mW, eps,
    List.pairwise_cons]
  refine ⟨⟨by simp, ?_⟩, by simp, ?_⟩ <;>
    rintro a b (⟨ha, hb⟩ | ⟨ha, hb⟩) <;> subst ha <;> subst hb <;> norm_num

theorem invFull_nW : InvFull nW := by
  norm_num [InvFull, RowOk, RowsSorted, ElemsSorted, nW, eps,
    List.pairwise_cons]
  refine ⟨⟨by simp, ?_⟩, by simp, ?_⟩ <;>
    rintro a b (⟨ha, hb⟩ | ⟨ha, hb⟩) <;> subst ha <;> subst hb <;> norm_num

theorem invFull_empty33 : InvFull ⟨3, 3, []⟩ :=
  ⟨by norm_num, by norm_num, List.Pairwise.nil, by simp⟩

/-- Witness for C6: the spec's concrete matrices `[[1,2],[3,4]]` and
    `[[5,6],[7,8]]` add commutatively; a 2×2/3×3 pair fails both ways. -/
theorem add_commutes_witness :
    (∃ s t, mW.add nW = .ok s ∧ nW.add mW = .ok t ∧
      ∀ r c : Int, s.get r c = t.get r c) ∧
    mW.add ⟨3, 3, []⟩ = .error "Matrix dimensions do not match for addition" ∧
    (⟨3, 3, []⟩ : SparseMatrix).add mW =
      .error "Matrix dimensions do not match for addition" := by
  refine ⟨?_, ?_, ?_⟩
  · exact (add_commutes mW nW invFull_mW invFull_nW).1 ⟨rfl, rfl⟩
  · exact ((add_commutes mW ⟨3, 3, []⟩ invFull_mW invFull_empty33).2
      (by norm_num [mW])).1
  · exact ((add_commutes mW ⟨3, 3, []⟩ invFull_mW invFull_empty33).2
      (by norm_num [mW])).2

/-- `subtract` on dimension-matched invariant-respecting operands: the value
    chain of the source (`make`, copy loop, subtract loop) composed. -/
theorem subtract_ok (a b : SparseMatrix) (hA : InvFull a) (hB : InvFull b)
    (hr : a.rows = b.rows) (hc : a.cols = b.cols) :
    a.subtract b = .ok (accumFold (fun x y => x - y)
      (applyInserts ⟨a.rows, a.cols, []⟩ (cellsOf a.rowList))
      (cellsOf b.rowList)) := by
  unfold SparseMatrix.subtract
  rw [if_neg (by omega)]
  show (SparseMatrix.make a.rows a.cols >>= fun r0 =>
    copyInLoop r0 (cellsOf a.rowList) >>= fun r1 =>
    subInLoop r1 (cellsOf b.rowList)) = _
  unfold SparseMatrix.make
  rw [if_neg (by have := hA.1; have := hA.2.1; omega)]
  show (copyInLoop ⟨a.rows, a.cols, []⟩ (cellsOf a.rowList) >>= fun r1 =>
    subInLoop r1 (cellsOf b.rowList)) = _
  rw [copyInLoop_ok (m := ⟨a.rows, a.cols, []⟩) (by exact cellsIn_of_invFull hA)]
  show subInLoop (applyInserts ⟨a.rows, a.cols, []⟩ (cellsOf a.rowList))
    (cellsOf b.rowList) = _
  rw [subInLoop_ok (by
    rw [applyInserts_rows, applyInserts_cols]
    show CellsIn a.rows a.cols _
    rw [hr, hc]
    exact cellsIn_of_invFull hB)]

/-- C7 (amended): on dimension-matched operands, `get` on `subtract(A, B)`
    returns `A.get − B.get` whenever that difference is zero or of magnitude
    at least `eps`; a nonzero difference of magnitude below `eps` is
    suppressed and `get` returns exactly `0`. -/
theorem subtract_spec (a b : SparseMatrix) (hA : InvFull a) (hB : InvFull b)
    (hr : a.rows = b.rows) (hc : a.cols = b.cols) :
    ∃ s, a.subtract b = .ok s ∧
      ∀ r c av bv, a.get r c = .ok av → b.get r c = .ok bv →
        s.get r c = .ok (if |av - bv| < eps then 0 else av - bv) := by
  refine ⟨_, subtract_ok a b hA hB hr hc, ?_⟩
  intro r c av bv hav hbv
  have hcond : ¬(r < 0 ∨ a.rows ≤ r ∨ c < 0 ∨ a.cols ≤ c) := by
    intro hcond'
    unfold SparseMatrix.get at hav
    rw [if_pos hcond'] at hav
    exact absurd hav (by simp)
  have hav' : av = lookupCell r c a.rowList := by
    unfold SparseMatrix.get at hav
    rw [if_neg hcond] at hav
    simpa using hav.symm
  have hbv' : bv = lookupCell r c b.rowList := by
    unfold SparseMatrix.get at hbv
    rw [if_neg (by omega)] at hbv
    simpa using hbv.symm
  have hS := phaseTwo (fun x y => x - y) (by intro x; simp) a b hA hB
    hr.symm hc.symm
  unfold SparseMatrix.get
  rw [if_neg (by
    rw [accumFold_rows, accumFold_cols, applyInserts_rows, applyInserts_cols]
    exact hcond)]
  rw [hS.2 r c, hav', hbv']

/-- The 1×1 matrix holding `1 + 1e-11` (reachable via a single insert). -/
def aC7 : SparseMatrix := ⟨1, 1, [⟨0, [(0, 1 + 1 / 100000000000)]⟩]⟩

/-- The 1×1 matrix holding `1`. -/
def bC7 : SparseMatrix := ⟨1, 1, [⟨0, [(0, 1)]⟩]⟩

theorem invFull_aC7 : InvFull aC7 := by
  norm_num [InvFull, RowOk, RowsSorted, ElemsSorted, aC7, eps,
    List.pairwise_cons]
  rw [abs_of_nonneg (by norm_num)]
  norm_num

theorem invFull_bC7 : InvFull bC7 := by
  norm_num [InvFull, RowOk, RowsSorted, ElemsSorted, bC7, eps,
    List.pairwise_cons]

/-- C7 counterexample: the claim demands `get` on `subtract(A, B)` equal
    `A.get − B.get` even when the difference has magnitude below `eps`; but
    with `A = [[1 + 1e-11]]` and `B = [[1]]` the true difference `1e-11` is
    nonzero while the subtraction result reads `0` — the below-threshold
    difference was suppressed, not stored. -/
theorem subtract_below_eps_cex :
    (aC7.subtract bC7 >>= fun s => s.get 0 0) = .ok 0 ∧
    aC7.get 0 0 = .ok (1 + 1 / 100000000000) ∧
    bC7.get 0 0 = .ok 1 ∧
    (1 + 1 / 100000000000 : Val) - 1 ≠ 0 := by
  refine ⟨?_, rfl, rfl, by norm_num⟩
  rw [subtract_ok aC7 bC7 invFull_aC7 invFull_bC7 rfl rfl]
  show (accumFold (fun x y => x - y)
    (applyInserts ⟨aC7.rows, aC7.cols, []⟩ (cellsOf aC7.rowList))
    (cellsOf bC7.rowList)).get 0 0 = _
  have hS := phaseTwo (fun x y => x - y) (by intro x; simp)
    aC7 bC7 invFull_aC7 invFull_bC7 rfl rfl
  unfold SparseMatrix.get
  rw [if_neg (by
    rw [accumFold_rows, accumFold_cols, applyInserts_rows, applyInserts_cols]
    norm_num [aC7])]
  rw [hS.2 0 0]
  rw [show lookupCell 0 0 aC7.rowList = 1 + 1 / 100000000000 from rfl,
    show lookupCell 0 0 bC7.rowList = 1 from rfl]
  show Except.ok (if |(1 + 1 / 100000000000 : Val) - 1| < eps then (0 : Val)
    else (1 + 1 / 100000000000 : Val) - 1) = Except.ok 0
  rw [if_pos (by
    rw [show (1 + 1 / 100000000000 : Val) - 1 = 1 / 100000000000 by norm_num]
    rw [abs_of_nonneg (by norm_num)]
    norm_num [eps])]

/-- Witness for C7's amended theorem at the spec's concrete matrices:
    `subtract([[1,2],[3,4]], [[5,6],[7,8]])` reads `-4` at `(0,0)`. -/
theorem subtract_spec_witness :
    ∃ s, mW.subtract nW = .ok s ∧ s.get 0 0 = .ok (-4) := by
  obtain ⟨s, hok, hval⟩ := subtract_spec mW nW invFull_mW invFull_nW rfl rfl
  refine ⟨s, hok, ?_⟩
  have hv := hval 0 0 1 5 rfl rfl
  rw [hv, if_neg (by
    rw [show (1 : Val) - 5 = -4 by norm_num, abs_of_nonpos (by norm_num)]
    norm_num [eps])]
  norm_num

/-! ## Canonical-form extensionality (claim C8)

Two invariant-respecting storages with the same reads are structurally
identical: sortedness makes the representation canonical. -/

theorem elems_ext :
    ∀ {es1 es2 : List (Int × Val)}, ElemsSorted es1 → ElemsSorted es2 →
      (∀ e ∈ es1, e.2 ≠ 0) → (∀ e ∈ es2, e.2 ≠ 0) →
      (∀ c, lookupElemScan c es1 = lookupElemScan c es2) → es1 = es2 := by
  intro es1
  induction es1 with
  | nil =>
    intro es2 _ _ _ hz2 hl
    cases es2 with
    | nil => rfl
    | cons e2 t2 =>
      exfalso
      have h := hl e2.1
      rw [lookupElemScan_cons, if_neg (lt_irrefl _), if_pos rfl] at h
      exact hz2 e2 (List.mem_cons_self _ _) h.symm
  | cons e1 t1 ih =>
    intro es2 hs1 hs2 hz1 hz2 hl
    cases es2 with
    | nil =>
      exfalso
      have h := hl e1.1
      rw [lookupElemScan_cons, if_neg (lt_irrefl _), if_pos rfl] at h
      exact hz1 e1 (List.mem_cons_self _ _) h
    | cons e2 t2 =>
      rw [ElemsSorted, List.pairwise_cons] at hs1 hs2
      obtain ⟨ha1, hb1⟩ := hs1
      obtain ⟨ha2, hb2⟩ := hs2
      rcases lt_trichotomy e1.1 e2.1 with hlt | heq | hgt
      · exfalso
        have h := hl e1.1
        rw [lookupElemScan_cons, if_neg (lt_irrefl _), if_pos rfl,
          lookupElemScan_cons, if_neg (by omega), if_neg (by omega)] at h
        exact hz1 e1 (List.mem_cons_self _ _) h
      · have hv : e1.2 = e2.2 := by
          have h := hl e1.1
          rw [lookupElemScan_cons, if_neg (lt_irrefl _), if_pos rfl,
            lookupElemScan_cons, if_neg (by omega), if_pos (by omega)] at h
          exact h
        have he : e1 = e2 := by
          obtain ⟨x1, y1⟩ := e1
          obtain ⟨x2, y2⟩ := e2
          simp only [Prod.mk.injEq]
          simp only at heq hv
          exact ⟨heq, hv⟩
        have ht : t1 = t2 := by
          refine ih hb1 hb2 (fun x hx => hz1 x (List.mem_cons_of_mem _ hx))
            (fun x hx => hz2 x (List.mem_cons_of_mem _ hx)) ?_
          intro c
          rcases le_or_lt c e1.1 with hle | hgt'
          · rw [lookupElemScan_gt (fun x hx => by have := ha1 x hx; omega),
              lookupElemScan_gt (fun x hx => by have := ha2 x hx; omega)]
          · have h := hl c
            rw [lookupElemScan_cons, if_pos (by omega),
              lookupElemScan_cons, if_pos (by omega)] at h
            exact h
        rw [he, ht]
      · exfalso
        have h := hl e2.1
        rw [lookupElemScan_cons, if_neg (by omega), if_neg (by omega),
          lookupElemScan_cons, if_neg (lt_irrefl _), if_pos rfl] at h
        exact hz2 e2 (List.mem_cons_self _ _) h.symm

/-- The payload facts `rows_ext` needs about each stored row. -/
def RowTidy (rw : RowNode) : Prop :=
  ElemsSorted rw.elements ∧ rw.elements ≠ [] ∧ ∀ e ∈ rw.elements, e.2 ≠ 0

/-- A nonempty tidy row is observable: its first element reads back its own
    nonzero value. -/
theorem rowTidy_witness {rw : RowNode} (h : RowTidy rw) :
    ∃ c, lookupElemScan c rw.elements ≠ 0 := by
  obtain ⟨_, hne, hz⟩ := h
  cases hel : rw.elements with
  | nil => exact absurd hel hne
  | cons e t =>
    refine ⟨e.1, ?_⟩
    rw [lookupElemScan_cons, if_neg (lt_irrefl _), if_pos rfl]
    exact hz e (by rw [hel]; exact List.mem_cons_self _ _)

theorem rows_ext :
    ∀ {l1 l2 : List RowNode}, RowsSorted l1 → RowsSorted l2 →
      (∀ rw ∈ l1, RowTidy rw) → (∀ rw ∈ l2, RowTidy rw) →
      (∀ r c, lookupCell r c l1 = lookupCell r c l2) → l1 = l2 := by
  intro l1
  induction l1 with
  | nil =>
    intro l2 _ hs2 _ ht2 hl
    cases l2 with
    | nil => rfl
    | cons rw2 t2 =>
      exfalso
      obtain ⟨c, hc⟩ := rowTidy_witness (ht2 rw2 (List.mem_cons_self _ _))
      have hR : lookupCell rw2.row c (rw2 :: t2) =
          lookupElemScan c rw2.elements := by
        unfold lookupCell
        rw [lookupRowScan_cons, if_neg (lt_irrefl _), if_pos rfl]
      have h := hl rw2.row c
      rw [hR] at h
      exact hc (by rw [← h]; rfl)
  | cons rw1 t1 ih =>
    intro l2 hs1 hs2 ht1 ht2 hl
    have hL : ∀ c, lookupCell rw1.row c (rw1 :: t1) =
        lookupElemScan c rw1.elements := by
      intro c
      unfold lookupCell
      rw [lookupRowScan_cons, if_neg (lt_irrefl _), if_pos rfl]
    cases l2 with
    | nil =>
      exfalso
      obtain ⟨c, hc⟩ := rowTidy_witness (ht1 rw1 (List.mem_cons_self _ _))
      have h := hl rw1.row c
      rw [hL c] at h
      exact hc (by rw [h]; rfl)
    | cons rw2 t2 =>
      rw [RowsSorted, List.pairwise_cons] at hs1 hs2
      obtain ⟨ha1, hb1⟩ := hs1
      obtain ⟨ha2, hb2⟩ := hs2
      rcases lt_trichotomy rw1.row rw2.row with hlt | heq | hgt
      · exfalso
        obtain ⟨c, hc⟩ := rowTidy_witness (ht1 rw1 (List.mem_cons_self _ _))
        have hR : lookupCell rw1.row c (rw2 :: t2) = 0 := by
          unfold lookupCell
          rw [lookupRowScan_cons, if_neg (by omega), if_neg (by omega)]
        have h := hl rw1.row c
        rw [hL c, hR] at h
        exact hc h
      · have helem : rw1.elements = rw2.elements := by
          obtain ⟨he1, _, hvz1⟩ := ht1 rw1 (List.mem_cons_self _ _)
          obtain ⟨he2, _, hvz2⟩ := ht2 rw2 (List.mem_cons_self _ _)
          refine elems_ext he1 he2 hvz1 hvz2 ?_
          intro c
          have hR : lookupCell rw1.row c (rw2 :: t2) =
              lookupElemScan c rw2.elements := by
            unfold lookupCell
            rw [lookupRowScan_cons, if_neg (by omega), if_pos (by omega)]
          have h := hl rw1.row c
          rw [hL c, hR] at h
          exact h
        have hrw : rw1 = rw2 := by
          obtain ⟨x1, y1⟩ := rw1
          obtain ⟨x2, y2⟩ := rw2
          simp only [RowNode.mk.injEq]
          simp only at heq helem
          exact ⟨heq, helem⟩
        have ht : t1 = t2 := by
          refine ih hb1 hb2 (fun x hx => ht1 x (List.mem_cons_of_mem _ hx))
            (fun x hx => ht2 x (List.mem_cons_of_mem _ hx)) ?_
          intro r c
          rcases le_or_lt r rw1.row with hle | hgt'
          · unfold lookupCell
            rw [lookupRowScan_gt (fun x hx => by have := ha1 x hx; omega),
              lookupRowScan_gt (fun x hx => by have := ha2 x hx; omega)]
          · have hLs : lookupCell r c (rw1 :: t1) = lookupCell r c t1 := by
              unfold lookupCell
              rw [lookupRowScan_cons, if_pos (by omega)]
            have hRs : lookupCell r c (rw2 :: t2) = lookupCell r c t2 := by
              unfold lookupCell
              rw [lookupRowScan_cons, if_pos (by omega)]
            have h := hl r c
            rw [hLs, hRs] at h
            exact h
        rw [hrw, ht]
      · exfalso
        obtain ⟨c, hc⟩ := rowTidy_witness (ht2 rw2 (List.mem_cons_self _ _))
        have hR : lookupCell rw2.row c (rw2 :: t2) =
            lookupElemScan c rw2.elements := by
          unfold lookupCell
          rw [lookupRowScan_cons, if_neg (lt_irrefl _), if_pos rfl]
        have hLz : lookupCell rw2.row c (rw1 :: t1) = 0 := by
          unfold lookupCell
          rw [lookupRowScan_cons, if_neg (by omega), if_neg (by omega)]
        have h := hl rw2.row c
        rw [hLz, hR] at h
        exact hc h.symm

theorem matrix_ext {m1 m2 : SparseMatrix} (h1 : InvFull m1) (h2 : InvFull m2)
    (hr : m1.rows = m2.rows) (hc : m1.cols = m2.cols)
    (hl : ∀ r c, lookupCell r c m1.rowList = lookupCell r c m2.rowList) :
    m1 = m2 := by
  have tidy : ∀ (m : SparseMatrix), InvFull m → ∀ rw ∈ m.rowList, RowTidy rw := by
    intro m hm rw hmem
    obtain ⟨_, _, hne, hsort, hb⟩ := hm.2.2.2 rw hmem
    refine ⟨hsort, hne, ?_⟩
    intro e he h0
    have := (hb e he).2.2
    rw [h0] at this
    simp at this
    have := eps_pos
    linarith
  have hrl : m1.rowList = m2.rowList :=
    rows_ext h1.2.2.1 h2.2.2.1 (tidy m1 h1) (tidy m2 h2) hl
  obtain ⟨r1, c1, l1⟩ := m1
  obtain ⟨r2, c2, l2⟩ := m2
  simp only at hr hc hrl
  simp [hr, hc, hrl]

/-! ## Transpose (claim C8) -/

/-- The cells inserted by `transpose`, in its traversal order. -/
def swapCells (l : List (Int × Int × Val)) : List (Int × Int × Val) :=
  l.map (fun t => (t.2.1, t.1, t.2.2))

theorem swapCells_in {m : SparseMatrix} (h : InvFull m) :
    CellsIn m.cols m.rows (swapCells (cellsOf m.rowList)) := by
  intro t ht
  obtain ⟨s, hs, heq⟩ := List.mem_map.1 ht
  obtain ⟨q1, q2, q3, q4⟩ := cellsIn_of_invFull h s hs
  rw [← heq]
  exact ⟨q3, q4, q1, q2⟩

theorem swapCells_val {m : SparseMatrix} (h : InvFull m) :
    ∀ t ∈ swapCells (cellsOf m.rowList), eps ≤ |t.2.2| := by
  intro t ht
  obtain ⟨s, hs, heq⟩ := List.mem_map.1 ht
  rw [← heq]
  exact cellsVal_of_invFull h s hs

theorem swapCells_distinct {m : SparseMatrix} (h : InvFull m) :
    (swapCells (cellsOf m.rowList)).Pairwise
      (fun s t => ¬(s.1 = t.1 ∧ s.2.1 = t.2.1)) := by
  unfold swapCells
  rw [List.pairwise_map]
  exact (cells_distinct h.2.2.1 (elemsSorted_of_invFull h)).imp
    (fun hst hk => hst ⟨hk.2, hk.1⟩)

theorem findCell_swap (r c : Int) :
    ∀ l, findCell r c (swapCells l) = findCell c r l := by
  intro l
  induction l with
  | nil => rfl
  | cons t rest ih =>
    show findCell r c ((t.2.1, t.1, t.2.2) :: swapCells rest) = _
    rw [findCell_cons, findCell_cons, ih]
    by_cases hk : t.1 = c ∧ t.2.1 = r
    · rw [if_pos (by simp; omega), if_pos hk]
    · rw [if_neg (by simp; omega), if_neg hk]

/-- `transpose` on an invariant-respecting matrix: swapped-dimension result
    built by inserting the swapped cells in traversal order. -/
theorem transpose_ok {m : SparseMatrix} (h : InvFull m) :
    m.transpose = .ok (applyInserts ⟨m.cols, m.rows, []⟩
      (swapCells (cellsOf m.rowList))) := by
  unfold SparseMatrix.transpose
  show (SparseMatrix.make m.cols m.rows >>= fun r0 =>
    (cellsOf m.rowList).foldlM (fun acc t => acc.insert t.2.1 t.1 t.2.2) r0)
    = _
  unfold SparseMatrix.make
  rw [if_neg (by have := h.1; have := h.2.1; omega)]
  show (cellsOf m.rowList).foldlM (fun acc t => acc.insert t.2.1 t.1 t.2.2)
    (⟨m.cols, m.rows, []⟩ : SparseMatrix) = _
  have hconv : (cellsOf m.rowList).foldlM
      (fun acc t => acc.insert t.2.1 t.1 t.2.2)
      (⟨m.cols, m.rows, []⟩ : SparseMatrix) =
      copyInLoop ⟨m.cols, m.rows, []⟩ (swapCells (cellsOf m.rowList)) := by
    unfold copyInLoop swapCells
    rw [List.foldlM_map]
  rw [hconv, copyInLoop_ok (m := ⟨m.cols, m.rows, []⟩) (by
    exact swapCells_in h)]

theorem transpose_invFull {m : SparseMatrix} (h : InvFull m) :
    InvFull (applyInserts ⟨m.cols, m.rows, []⟩
      (swapCells (cellsOf m.rowList))) :=
  applyInserts_invFull ⟨h.2.1, h.1, List.Pairwise.nil, by simp⟩
    (by exact swapCells_in h)

theorem transpose_lookup {m : SparseMatrix} (h : InvFull m) :
    ∀ x y, lookupCell x y (applyInserts ⟨m.cols, m.rows, []⟩
      (swapCells (cellsOf m.rowList))).rowList = lookupCell y x m.rowList := by
  intro x y
  rw [applyInserts_lookup (m := ⟨m.cols, m.rows, []⟩)
    ⟨List.Pairwise.nil, by simp⟩
    (by exact swapCells_in h) (swapCells_distinct h) (swapCells_val h) x y]
  show (findCell x y (swapCells (cellsOf m.rowList))).getD 0 = _
  rw [findCell_swap]
  exact findCell_cells h.2.2.1 (elemsSorted_of_invFull h) y x

/-- C8: transposing twice reproduces the matrix exactly — the same
    dimensions, stored cells and values, indeed the identical storage
    structure. -/
theorem transpose_transpose (m : SparseMatrix) (h : InvFull m) :
    ∃ t u, m.transpose = .ok t ∧ t.transpose = .ok u ∧ u = m := by
  refine ⟨applyInserts ⟨m.cols, m.rows, []⟩ (swapCells (cellsOf m.rowList)),
    _, transpose_ok h, transpose_ok (transpose_invFull h), ?_⟩
  have htInv := transpose_invFull h
  set t := applyInserts ⟨m.cols, m.rows, []⟩ (swapCells (cellsOf m.rowList))
    with hdef
  have htr : t.rows = m.cols := by rw [hdef, applyInserts_rows]
  have htc : t.cols = m.rows := by rw [hdef, applyInserts_cols]
  have huInv : InvFull (applyInserts ⟨t.cols, t.rows, []⟩
      (swapCells (cellsOf t.rowList))) := transpose_invFull htInv
  refine matrix_ext huInv h ?_ ?_ ?_
  · rw [applyInserts_rows, htc]
  · rw [applyInserts_cols, htr]
  · intro r c
    rw [transpose_lookup htInv r c, transpose_lookup h c r]

/-- Witness for C8 at the concrete matrix `[[1,2],[3,4]]`. -/
theorem transpose_transpose_witness :
    ∃ t u, mW.transpose = .ok t ∧ t.transpose = .ok u ∧ u = mW :=
  transpose_transpose mW invFull_mW

/-- Witness for C2 at a concrete fresh 2×2 matrix and a mixed insert/remove
    sequence. -/
theorem inserts_keep_storage_sorted_witness :
    (applyInserts ⟨2, 2, []⟩ [(0, 1, 5), (1, 0, 3), (0, 0, 2), (0, 1, 0)]).rowList.Pairwise
      (fun a b => a.row < b.row) ∧
    ∀ rw ∈ (applyInserts ⟨2, 2, []⟩
        [(0, 1, 5), (1, 0, 3), (0, 0, 2), (0, 1, 0)]).rowList,
      rw.elements.Pairwise (fun a b => a.1 < b.1) :=
  inserts_keep_storage_sorted 2 2 (by decide) (by decide) _

end SparseSpec
